import Mathlib

/-!
Verification of the anchor data model and relocation engine of the
obsidian-annotated plugin, shallowly embedded from the TypeScript sources
(src/utils/SnippetMatcher.ts, src/managers/CommentManager.ts, src/main.ts,
src/types.ts, src/editor/CommentGutterExtension.ts).

Strings are modelled as lists of characters (`JStr`); JavaScript array
indexing that can hit `undefined` is modelled with `Option`, and the
`TypeError` raised by calling a method on `undefined` is modelled by an
explicit `crash` outcome.  Similarity scores are exact rationals: the JS
doubles involved are Dice coefficients with denominators at most 98 compared
against `0.7` and each other, far above double-precision rounding error, so
every comparison agrees with the exact rational one.  `trimEnd`'s whitespace
set is modelled by `Char.isWhitespace`.  The manager's JS object aliasing
(the object `getComments` returns IS the cached object, mutated in place) is
modelled by refreshing the cache entry at each mutation point.
-/

/-! ## Definitions: the shallow embedding of the program -/

/-- A JavaScript string, modelled as a list of characters. -/
abbrev JStr := List Char

/-- JS `String.prototype.trimEnd`: strip trailing whitespace. -/
def trimEnd (s : JStr) : JStr := s.rdropWhile (fun c => c.isWhitespace)

/-- JS `s.startsWith(pre)`. -/
def jsStartsWith (s pre : JStr) : Bool := pre.isPrefixOf s

/-- JS `docLines[i]` for an integer index: `undefined` (here `none`) when out of range. -/
def jsIndex (xs : List JStr) (i : ℤ) : Option JStr :=
  if 0 ≤ i then xs[i.toNat]? else none

/-- SnippetMatcher.ts `captureSnippet`: `lineContent.slice(0, 50).trimEnd()`. -/
def captureSnippet (lineContent : JStr) : JStr :=
  trimEnd (lineContent.take 50)

/-- The list of overlapping character bigrams of `s`, in order
(SnippetMatcher.ts `bigrams`, with the count map replaced by the underlying
list of bigrams; the map's entry for `g` is `(bigrams s).count g`). -/
def bigrams (s : JStr) : List JStr :=
  (List.range (s.length - 1)).map (fun i => (s.drop i).take 2)

/-- The `intersection` accumulator of SnippetMatcher.ts `bigramSimilarity`:
`for (const [bg, count] of aB) intersection += Math.min(count, bB.get(bg) ?? 0)`.
The iteration over the keys of `a`'s count map is the iteration over the
distinct bigrams of `a`; the map's entry for `g` is `(bigrams _).count g`. -/
def bigramIntersection (a b : JStr) : ℕ :=
  let aB := bigrams a
  let bB := bigrams b
  (aB.dedup.map (fun g => min (aB.count g) (bB.count g))).sum

/-- SnippetMatcher.ts `bigramSimilarity`: Dice coefficient over character
bigrams, with the identical-strings and short-string special cases. -/
def bigramSimilarity (a b : JStr) : ℚ :=
  if a = b then 1
  else if a.length < 2 ∨ b.length < 2 then 0
  else
    (2 * bigramIntersection a b : ℚ) / (((a.length : ℚ) - 1) + ((b.length : ℚ) - 1))

/-- Result of `findLineBySnippet`: a match, `null`, or a thrown `TypeError`
(from calling `.startsWith` on an out-of-range — hence `undefined` — line). -/
inductive FindLineResult where
  | found (line : ℤ) (confidence : ℚ)
  | notFound
  | crash
  deriving DecidableEq, Repr

/-- One iteration (distance `d`) of Phase 1's outward scan, positive side:
`if (hintLine + d <= hi && docLines[hintLine + d].startsWith(snippet))`.
`some` is an early return out of the loop, `none` falls through to `d + 1`. -/
def phase1StepPos (docLines : List JStr) (snippet : JStr) (hintLine hi : ℤ)
    (d : ℕ) : Option FindLineResult :=
  if hintLine + d ≤ hi then
    match jsIndex docLines (hintLine + d) with
    | none => some .crash
    | some l => if jsStartsWith l snippet then some (.found (hintLine + d) 1) else none
  else none

/-- One iteration (distance `d`) of Phase 1's outward scan, negative side
first: `if (hintLine - d >= lo && docLines[hintLine - d].startsWith(snippet))`,
falling through to the positive side. -/
def phase1Step (docLines : List JStr) (snippet : JStr) (hintLine lo hi : ℤ)
    (d : ℕ) : Option FindLineResult :=
  if lo ≤ hintLine - d then
    match jsIndex docLines (hintLine - d) with
    | none => some .crash
    | some l =>
      if jsStartsWith l snippet then some (.found (hintLine - d) 1)
      else phase1StepPos docLines snippet hintLine hi d
  else phase1StepPos docLines snippet hintLine hi d

/-- Phase 1's `for (let d = 1; d <= radius; d++)` loop, run from distance `d`
with `fuel` iterations remaining. -/
def phase1Loop (docLines : List JStr) (snippet : JStr) (hintLine lo hi : ℤ) :
    (d : ℕ) → (fuel : ℕ) → Option FindLineResult
  | _, 0 => none
  | d, fuel + 1 =>
    match phase1Step docLines snippet hintLine lo hi d with
    | some r => some r
    | none => phase1Loop docLines snippet hintLine lo hi (d + 1) fuel

/-- `intRangeGo lo n` is the `n` consecutive integers starting at `lo`. -/
def intRangeGo (lo : ℤ) : ℕ → List ℤ
  | 0 => []
  | n + 1 => lo :: intRangeGo (lo + 1) n

/-- The integers from `lo` to `hi` inclusive (Phase 2's `for` loop range). -/
def intRange (lo hi : ℤ) : List ℤ :=
  intRangeGo lo (hi + 1 - lo).toNat

/-- Phase 2's loop body: fold state is `none` (no accepted candidate yet,
`bestLine = -1`) or `some (bestLine, bestSim, bestDist)`. -/
def fuzzyStep (docLines : List JStr) (snippet : JStr) (hintLine : ℤ)
    (best : Option (ℤ × ℚ × ℤ)) (i : ℤ) : Option (ℤ × ℚ × ℤ) :=
  let candidate := trimEnd (((jsIndex docLines i).getD []).take 50)
  let sim := bigramSimilarity snippet candidate
  if (7 : ℚ)/10 ≤ sim then
    let dist := |i - hintLine|
    match best with
    | none => some (i, sim, dist)
    | some (bl, bs, bd) =>
      if bs < sim ∨ (sim = bs ∧ dist < bd) then some (i, sim, dist) else some (bl, bs, bd)
  else best

/-- SnippetMatcher.ts `findLineBySnippet`: guard for the empty snippet, the
exact hint-line probe, Phase 1's bounded outward scan, then Phase 2's fuzzy
bigram scan over `[lo, hi]` with threshold `0.7`. -/
def findLineBySnippet (docLines : List JStr) (snippet : JStr) (hintLine : ℤ)
    (radius : ℕ := 50) : FindLineResult :=
  if snippet = [] then .notFound
  else
    let len : ℤ := docLines.length
    let lo : ℤ := max 0 (hintLine - radius)
    let hi : ℤ := min (len - 1) (hintLine + radius)
    if 0 ≤ hintLine ∧ hintLine < len ∧
        jsStartsWith ((jsIndex docLines hintLine).getD []) snippet then
      .found hintLine 1
    else
      match phase1Loop docLines snippet hintLine lo hi 1 radius with
      | some r => r
      | none =>
        match (intRange lo hi).foldl (fuzzyStep docLines snippet hintLine) none with
        | some (bl, bs, _) => .found bl bs
        | none => .notFound

/-- Convenience: a Lean string literal as a `JStr`. -/
def js (s : String) : JStr := s.toList

/-- The similarity Phase 2 computes for scan index `i`: the snippet against
the line's 50-character right-trimmed prefix. -/
def candSim (docLines : List JStr) (snippet : JStr) (i : ℤ) : ℚ :=
  bigramSimilarity snippet (trimEnd (((jsIndex docLines i).getD []).take 50))

/-- Invariant of Phase 2's fold: the running best is an accepted candidate
among the scanned indices and beats every scanned candidate by similarity,
with distance to the hint as the tie-break. -/
def FuzzyInv (docLines : List JStr) (snippet : JStr) (hintLine : ℤ)
    (scanned : List ℤ) : Option (ℤ × ℚ × ℤ) → Prop
  | none => ∀ i ∈ scanned, ¬((7:ℚ)/10 ≤ candSim docLines snippet i)
  | some (bl, bs, bd) =>
      bl ∈ scanned ∧ bs = candSim docLines snippet bl ∧ bd = |bl - hintLine| ∧
      (7:ℚ)/10 ≤ bs ∧
      ∀ i ∈ scanned, (7:ℚ)/10 ≤ candSim docLines snippet i →
        candSim docLines snippet i < bs ∨
          (candSim docLines snippet i = bs ∧ bd ≤ |i - hintLine|)

/-- types.ts `CommentStatus` (the manager also recognises `archived`). -/
inductive CommentStatus where
  | «open»
  | resolved
  | archived
  deriving DecidableEq, Repr

/-- types.ts `RangeLocation` (1-indexed lines, 0-indexed character offsets). -/
structure RangeLocation where
  start_line : ℤ
  start_char : ℤ
  end_line : ℤ
  end_char : ℤ
  deriving DecidableEq, Repr

/-- types.ts `CommentReply`. -/
structure CommentReply where
  id : String
  author : String
  created_at : String
  updated_at : String
  content : String
  status : CommentStatus
  deriving DecidableEq, Repr

/-- types.ts `Comment`.  The optional fields `content_snippet` and `is_stale`
are `Option`s; a JS truthiness test on them is `strFalsy` / `= some true`. -/
structure Comment where
  id : String
  author : String
  created_at : String
  updated_at : String
  location : RangeLocation
  content : String
  status : CommentStatus
  resolved_at : Option String := none
  resolved_by : Option String := none
  replies : List CommentReply
  last_activity_at : String
  content_snippet : Option JStr := none
  is_stale : Option Bool := none
  deriving DecidableEq, Repr

/-- types.ts `CommentFileMetadata`. -/
structure CommentFileMetadata where
  total_comments : ℕ
  open_count : ℕ
  resolved_count : ℕ
  archived_count : ℕ
  authors : List String
  deriving DecidableEq, Repr

/-- types.ts `CommentFile`. -/
structure CommentFile where
  version : String
  note_path : String
  created_at : String
  updated_at : String
  comments : List Comment
  metadata : CommentFileMetadata
  deriving DecidableEq, Repr

/-- JS falsiness of an optional string (`undefined` or `""`). -/
def strFalsy : Option JStr → Bool
  | none => true
  | some [] => true
  | some (_ :: _) => false

/-- JS `Map.get`. -/
def alGet {α : Type} (l : List (String × α)) (k : String) : Option α :=
  (l.find? (fun p => p.1 == k)).map Prod.snd

/-- JS `Map.set`: replace in place, or append a new entry. -/
def alSet {α : Type} (l : List (String × α)) (k : String) (v : α) : List (String × α) :=
  match l with
  | [] => [(k, v)]
  | (k', v') :: t => if k' = k then (k, v) :: t else (k', v') :: alSet t k v

/-- JS `Map.delete`. -/
def alDelete {α : Type} (l : List (String × α)) (k : String) : List (String × α) :=
  l.filter (fun p => !(p.1 == k))

/-- CommentManager.ts `commentsPath`. -/
def commentsPath (notePath : String) : String := notePath ++ ".comments"

/-- The manager state: the in-memory cache keyed by note path, and the
persisted files keyed by comments path. -/
structure MgrState where
  cache : List (String × CommentFile)
  vault : List (String × CommentFile)
  deriving DecidableEq, Repr

/-- Outcome of a mutating manager operation: no write attempted (missing file
or comment), write succeeded, or the adapter write rejected. -/
inductive WriteOutcome where
  | skipped
  | saved
  | failed
  deriving DecidableEq, Repr

/-- CommentManager.ts `getComments`: cache hit, else read + parse + cache
(the parse always succeeds here since the vault stores parsed files; parse
failure is not needed by any claim). -/
def getComments (st : MgrState) (notePath : String) : MgrState × Option CommentFile :=
  match alGet st.cache notePath with
  | some cached => (st, some cached)
  | none =>
    match alGet st.vault (commentsPath notePath) with
    | none => (st, none)
    | some cf => ({ st with cache := alSet st.cache notePath cf }, some cf)

/-- The author-set accumulation of `recalculateMetadata` (a JS `Set` keeps
first-insertion order). -/
def addAuthor (authors : List String) (a : String) : List String :=
  if a ∈ authors then authors else authors ++ [a]

/-- CommentManager.ts `recalculateMetadata`, as a function of the comments. -/
def recalculateMetadata (comments : List Comment) : CommentFileMetadata :=
  { total_comments := comments.length,
    open_count := comments.countP (fun c => decide (c.status = CommentStatus.«open»)),
    resolved_count := comments.countP (fun c => decide (c.status = CommentStatus.resolved)),
    archived_count := comments.countP (fun c => decide (c.status = CommentStatus.archived)),
    authors := comments.foldl
      (fun as c => c.replies.foldl (fun as2 r => addAuthor as2 r.author) (addAuthor as c.author))
      [] }

/-- CommentManager.ts `saveComments`: recompute metadata, bump `updated_at`,
write, then refresh the cache entry.  `writeOk` says whether the adapter
write succeeds; when it rejects, the final `cache.set` is skipped — but when
the note is already cached the caller's object IS the cached object, so the
in-place mutations (including metadata and `updated_at`) are already visible
there. -/
def saveComments (st : MgrState) (cf : CommentFile) (now : String) (writeOk : Bool) :
    MgrState × Bool :=
  let cf' := { cf with metadata := recalculateMetadata cf.comments, updated_at := now }
  let cache1 := if (alGet st.cache cf.note_path).isSome
    then alSet st.cache cf.note_path cf' else st.cache
  if writeOk then
    ({ cache := alSet cache1 cf.note_path cf',
       vault := alSet st.vault (commentsPath cf.note_path) cf' }, true)
  else ({ st with cache := cache1 }, false)

/-- CommentManager.ts `createEmptyCommentFile`. -/
def createEmptyCommentFile (notePath now : String) : CommentFile :=
  { version := "1.0", note_path := notePath, created_at := now, updated_at := now,
    comments := [],
    metadata := { total_comments := 0, open_count := 0, resolved_count := 0,
                  archived_count := 0, authors := [] } }

/-- CommentManager.ts `addComment`. -/
def addComment (st : MgrState) (notePath : String) (comment : Comment) (now : String)
    (writeOk : Bool) : MgrState × WriteOutcome :=
  let r := getComments st notePath
  let cf := r.2.getD (createEmptyCommentFile notePath now)
  let cf1 := { cf with comments := cf.comments ++ [comment] }
  let s := saveComments r.1 cf1 now writeOk
  (s.1, if s.2 then .saved else .failed)

/-- The in-place mutation `addReply` applies to the found comment: push the
reply, bump `updated_at`, set `last_activity_at` to the reply's `created_at`,
and reopen if resolved. -/
def applyReply (reply : CommentReply) (now : String) (c : Comment) : Comment :=
  let c1 := { c with replies := c.replies ++ [reply], updated_at := now,
                     last_activity_at := reply.created_at }
  if c1.status = CommentStatus.resolved then
    { c1 with status := CommentStatus.«open», resolved_at := none, resolved_by := none }
  else c1

/-- Update the first element satisfying `p` (JS `Array.find` + in-place
mutation of the found object). -/
def updateFirst (p : Comment → Bool) (f : Comment → Comment) : List Comment → List Comment
  | [] => []
  | c :: cs => if p c then f c :: cs else c :: updateFirst p f cs

/-- CommentManager.ts `addReply`. -/
def addReply (st : MgrState) (notePath commentId : String) (reply : CommentReply)
    (now : String) (writeOk : Bool) : MgrState × WriteOutcome :=
  let r := getComments st notePath
  match r.2 with
  | none => (r.1, .skipped)
  | some cf =>
    if cf.comments.any (fun c => c.id == commentId) then
      let cf1 := { cf with
        comments := updateFirst (fun c => c.id == commentId) (applyReply reply now) cf.comments }
      let s := saveComments r.1 cf1 now writeOk
      (s.1, if s.2 then .saved else .failed)
    else (r.1, .skipped)

/-- The in-place mutation `resolveComment` applies to the found comment. -/
def applyResolve (resolvedBy now : String) (c : Comment) : Comment :=
  { c with status := CommentStatus.resolved, resolved_at := some now,
           resolved_by := some resolvedBy, updated_at := now }

/-- CommentManager.ts `resolveComment`. -/
def resolveComment (st : MgrState) (notePath commentId resolvedBy : String)
    (now : String) (writeOk : Bool) : MgrState × WriteOutcome :=
  let r := getComments st notePath
  match r.2 with
  | none => (r.1, .skipped)
  | some cf =>
    if cf.comments.any (fun c => c.id == commentId) then
      let cf1 := { cf with
        comments := updateFirst (fun c => c.id == commentId) (applyResolve resolvedBy now)
          cf.comments }
      let s := saveComments r.1 cf1 now writeOk
      (s.1, if s.2 then .saved else .failed)
    else (r.1, .skipped)

/-- JS `noteContent.split("\n")`. -/
def splitLines (s : JStr) : List JStr := s.splitOn '\n'

/-- One iteration of the reconciler's per-comment loop (main.ts 337-381):
backfill a missing snippet, confirm a still-matching anchor, or relocate via
the snippet matcher; `.error ()` is the `TypeError` thrown when the matcher
reads past the document (propagating out of the whole pass). -/
def reconcileOne (docLines : List JStr) (c : Comment) : Except Unit (Comment × Bool) :=
  let storedLine : ℤ := c.location.start_line - 1
  if strFalsy c.content_snippet then
    if 0 ≤ storedLine ∧ storedLine < (docLines.length : ℤ) then
      .ok ({ c with
        content_snippet := some (captureSnippet ((jsIndex docLines storedLine).getD [])) }, true)
    else .ok (c, false)
  else
    let snippet := c.content_snippet.getD []
    if 0 ≤ storedLine ∧ storedLine < (docLines.length : ℤ) ∧
        jsStartsWith ((jsIndex docLines storedLine).getD []) snippet = true then
      if c.is_stale = some true then .ok ({ c with is_stale := some false }, true)
      else .ok (c, false)
    else
      match findLineBySnippet docLines snippet storedLine 50 with
      | .crash => .error ()
      | .found l _conf =>
        let newLine1 := l + 1
        let lineDelta := newLine1 - c.location.start_line
        .ok ({ c with
          location := { c.location with
            start_line := newLine1,
            end_line := c.location.end_line + lineDelta },
          content_snippet := some (captureSnippet ((jsIndex docLines l).getD [])),
          is_stale := if c.is_stale = some true then some false else c.is_stale }, true)
      | .notFound =>
        if c.is_stale = some true then .ok (c, false)
        else .ok ({ c with is_stale := some true }, true)

/-- The reconciler's loop over all comments, accumulating the `changed` flag. -/
def reconcilePass (docLines : List JStr) : List Comment → Except Unit (List Comment × Bool)
  | [] => .ok ([], false)
  | c :: cs => do
    let r ← reconcileOne docLines c
    let rs ← reconcilePass docLines cs
    .ok (r.1 :: rs.1, r.2 || rs.2)

/-- main.ts `verifyAndRelocateComments`: read the store and the note, run the
per-comment loop, and — iff anything changed — persist the store exactly once
(the returned count is the number of store writes performed).  A `noteContent`
of `none` is a failed read (the JS `catch` yields `null`); the empty string is
falsy and also returns early.  A failed write or a matcher `TypeError` is
`.error ()` (the post-exception state is not examined by any claim). -/
def verifyAndRelocateComments (st : MgrState) (notePath : String)
    (noteContent : Option JStr) (now : String) (writeOk : Bool) :
    Except Unit (MgrState × ℕ) :=
  let r := getComments st notePath
  match r.2 with
  | none => .ok (r.1, 0)
  | some cf =>
    if cf.comments = [] then .ok (r.1, 0)
    else
      match noteContent with
      | none => .ok (r.1, 0)
      | some content =>
        if content = [] then .ok (r.1, 0)
        else
          let docLines := splitLines content
          match reconcilePass docLines cf.comments with
          | .error e => .error e
          | .ok (comments', changed) =>
            if changed then
              let cf1 := { cf with comments := comments' }
              let s := saveComments r.1 cf1 now writeOk
              if s.2 then .ok (s.1, 1) else .error ()
            else .ok (r.1, 0)

/-- A resolved comment anchored at line 1. -/
def wComment : Comment :=
  { id := "c1", author := "al", created_at := "t0", updated_at := "t0",
    location := { start_line := 1, start_char := 0, end_line := 1, end_char := 0 },
    content := "x", status := CommentStatus.resolved,
    resolved_at := some "t0", resolved_by := some "al",
    replies := [], last_activity_at := "t0",
    content_snippet := none, is_stale := none }

/-- A fresh reply. -/
def wReply : CommentReply :=
  { id := "r1", author := "bob", created_at := "t1", updated_at := "t1",
    content := "y", status := CommentStatus.«open» }

/-- A store file holding just `wComment`. -/
def wFile : CommentFile :=
  { version := "1.0", note_path := "n.md", created_at := "t0", updated_at := "t0",
    comments := [wComment],
    metadata := { total_comments := 1, open_count := 0, resolved_count := 1,
                  archived_count := 0, authors := ["al"] } }

/-- A manager state where `wFile` is cached and persisted. -/
def wState : MgrState :=
  { cache := [("n.md", wFile)], vault := [("n.md.comments", wFile)] }

/-- The verification condition of the reconciler's confirm branch
(main.ts 351-355). -/
def anchorVerified (docLines : List JStr) (c : Comment) : Prop :=
  0 ≤ c.location.start_line - 1 ∧ c.location.start_line - 1 < (docLines.length : ℤ) ∧
  jsStartsWith ((jsIndex docLines (c.location.start_line - 1)).getD [])
    (c.content_snippet.getD []) = true

/-- Run the reconciler twice on the same document text and report the second
run's store-write count (`none` if either run throws). -/
def secondRunWrites (st : MgrState) (path : String) (content : Option JStr)
    (n1 n2 : String) : Option ℕ :=
  match verifyAndRelocateComments st path content n1 true with
  | .error _ => none
  | .ok r1 =>
    match verifyAndRelocateComments r1.1 path content n2 true with
    | .error _ => none
    | .ok r2 => some r2.2

/-- The hypotheses under which the reconciler is idempotent: the annotation
has a snippet whose first 50 characters contain a non-whitespace character,
and its anchor line is within the document. -/
def SnippetSafe (docLines : List JStr) (c : Comment) : Prop :=
  ∃ s, c.content_snippet = some s ∧ captureSnippet s ≠ [] ∧
    1 ≤ c.location.start_line ∧ c.location.start_line ≤ (docLines.length : ℤ)

/-- A snippet-safe comment for the idempotence witness. -/
def wComment2 : Comment :=
  { wComment with
    status := CommentStatus.«open»,
    resolved_at := none,
    resolved_by := none,
    content_snippet := some (js "alpha"),
    is_stale := none }

/-- A store file holding just `wComment2`. -/
def wFile2 : CommentFile := { wFile with comments := [wComment2] }

/-- A manager state where `wFile2` is cached and persisted. -/
def wState2 : MgrState :=
  { cache := [("n.md", wFile2)], vault := [("n.md.comments", wFile2)] }

/-- An annotation anchored at line 6, whose snippet also matches line 1. -/
def w5Comment : Comment :=
  { wComment with
    location := { start_line := 6, start_char := 0, end_line := 6, end_char := 0 },
    content_snippet := some (js "dup") }

/-- The document after inserting 5 lines above the anchor: the anchored
content now sits at line 11, but a duplicate of it sits at line 1. -/
def w5Doc : List JStr :=
  [js "dup", js "a", js "b", js "c", js "d",
   js "i1", js "i2", js "i3", js "i4", js "i5", js "dup"]

/-- What the reconciler actually produces on `w5Doc`. -/
def w5Relocated : Comment :=
  { w5Comment with
    location := { start_line := 1, start_char := 0, end_line := 1, end_char := 0 } }

/-- Five inserted blank lines. -/
def w5I : List JStr := [[], [], [], [], []]

/-- The witness annotation for the amended C5: anchored at line 1 of the
original one-line document, snippet captured from that line. -/
def w5c : Comment :=
  { wComment with
    location := { start_line := 1, start_char := 0, end_line := 1, end_char := 0 },
    content_snippet := some (captureSnippet (js "anchor")) }

/-- CommentGutterExtension.ts `CommentLineInfo`. -/
structure CommentLineInfo where
  count : ℕ
  hasStale : Bool
  allResolved : Bool
  deriving DecidableEq, Repr

/-- The `CommentLineMap` (a JS `Map`, insertion-ordered), as an association
list from 1-indexed line numbers. -/
def LineMap : Type := List (ℤ × CommentLineInfo)

/-- JS `Map.get` on a line map. -/
def lmGet (m : List (ℤ × CommentLineInfo)) (k : ℤ) : Option CommentLineInfo :=
  (m.find? (fun p => p.1 == k)).map Prod.snd

/-- JS `Map.set` on a line map. -/
def lmSet (m : List (ℤ × CommentLineInfo)) (k : ℤ) (v : CommentLineInfo) :
    List (ℤ × CommentLineInfo) :=
  match m with
  | [] => [(k, v)]
  | (k', v') :: t => if k' = k then (k, v) :: t else (k', v') :: lmSet t k v

/-- The sum/OR/AND combination both merge sites use. -/
def mergeInfo (a b : CommentLineInfo) : CommentLineInfo :=
  { count := a.count + b.count,
    hasStale := a.hasStale || b.hasStale,
    allResolved := a.allResolved && b.allResolved }

/-- The singleton bucket `refreshGutterForFile` creates for one comment. -/
def singletonInfo (c : Comment) : CommentLineInfo :=
  { count := 1, hasStale := c.is_stale == some true,
    allResolved := decide (c.status = CommentStatus.resolved) }

/-- main.ts `refreshGutterForFile` (281-298): group the comments that pass
the hide-resolved filter by `location.start_line`, combining colliding
buckets by sum/OR/AND (the in-place mutation of `existing` is the `lmSet`
replacement). -/
def buildLineMap (hideResolved : Bool) (comments : List Comment) :
    List (ℤ × CommentLineInfo) :=
  comments.foldl
    (fun lineMap c =>
      if hideResolved && decide (c.status = CommentStatus.resolved) then lineMap
      else
        let line := c.location.start_line
        match lmGet lineMap line with
        | some existing => lmSet lineMap line (mergeInfo existing (singletonInfo c))
        | none => lmSet lineMap line (singletonInfo c))
    []

/-- CommentGutterExtension.ts `commentLineField` update on `docChanged`
(56-80): remap every bucket's line through the edit's position transform and
re-bucket, merging collisions by sum/OR/AND.  `mapLine` abstracts the
CodeMirror composite `line → from-position → mapPos(pos, 1) → lineAt`
(the editing surface is an external collaborator specified at its interface
boundary); `none` models the `newPos < 0 || newPos > doc.length` skip. -/
def remapLineMap (oldLines : ℕ) (mapLine : ℤ → Option ℤ)
    (prev : List (ℤ × CommentLineInfo)) : List (ℤ × CommentLineInfo) :=
  prev.foldl
    (fun (newMap : List (ℤ × CommentLineInfo)) (p : ℤ × CommentLineInfo) =>
      if p.1 < 1 ∨ p.1 > (oldLines : ℤ) then newMap
      else
        match mapLine p.1 with
        | none => newMap
        | some newLine =>
          match lmGet newMap newLine with
          | some existing => lmSet newMap newLine (mergeInfo existing p.2)
          | none => lmSet newMap newLine p.2)
    []

/-- types.ts (`scheduleSave`, line 239): the Live Position Tracker
reschedules its flush `2000` ms after each edit. -/
def trackerDebounceMs : ℕ := 2000

/-- main.ts (386-388, and likewise 424-426): `_selfSaveCount` is incremented
immediately before `saveComments` and decremented by a `setTimeout` `500` ms
after the write completes. -/
def selfSaveReleaseDelayMs : ℕ := 500

/-- The guard's value along a single-write trace: engaged at `tEngage`
(immediately before the write), released `selfSaveReleaseDelayMs` after the
write completes at `tComplete`. -/
def selfSaveCountAt (tEngage tComplete t : ℕ) : ℕ :=
  if tEngage ≤ t ∧ t < tComplete + selfSaveReleaseDelayMs then 1 else 0

/-- main.ts 118-128: the vault `modify` handler for a `.comments` file is a
no-op while the guard is held, else drops that document's cache entry. -/
def handleModify (selfSaveCount : ℕ) (cache : List (String × CommentFile))
    (notePath : String) : List (String × CommentFile) :=
  if selfSaveCount > 0 then cache else alDelete cache notePath

/-! ## Theorems -/

example : captureSnippet (js "hello   ") = js "hello" := by decide

example : findLineBySnippet [js "line zero", js "line one", js "line two", js "line three"]
    (js "line two") 2 = .found 2 1 := by decide

example : findLineBySnippet [js "line zero", js "line one", js "line two", js "line three"]
    (js "line three") 0 = .found 3 1 := by decide

example : findLineBySnippet [js "a"] (js "b") 2 = .crash := by decide

example : findLineBySnippet [js "unique start", js "duplicate line here", js "something else",
    js "something else", js "duplicate line here"] (js "duplicate line here") 3 = .found 4 1 := by
  decide

example : bigramSimilarity (js "abcde") (js "abcdx") = 3/4 := by
  have h : bigramIntersection ['a','b','c','d','e'] ['a','b','c','d','x'] = 3 := by decide
  simp +decide [bigramSimilarity, h, js]
  norm_num

/-- `List.count` does not depend on which lawful `BEq` instance is used. -/
lemma count_beq_irrel (g : JStr) (A : List JStr) :
    @List.count JStr List.instBEq g A = @List.count JStr instBEqOfDecidableEq g A := by
  induction A with
  | nil => rfl
  | cons a l ih =>
    rw [@List.count_cons _ List.instBEq, @List.count_cons _ instBEqOfDecidableEq, ih]
    by_cases h : a = g <;> simp [h]

/-- Summing `min` of the two counts over the distinct elements of `A` computes
the cardinality of the multiset intersection of `A` and `B`. -/
lemma dedup_map_min_count_sum (A B : List JStr) :
    ((A.dedup.map fun g => min (A.count g) (B.count g)).sum)
      = Multiset.card ((A : Multiset JStr) ∩ (B : Multiset JStr)) := by
  have hsub : ((A : Multiset JStr) ∩ (B : Multiset JStr)).toFinset ⊆ A.toFinset := by
    intro g hg
    rw [Multiset.mem_toFinset, Multiset.mem_inter] at hg
    rw [List.mem_toFinset]
    exact_mod_cast hg.1
  have hzero : ∀ g ∈ A.toFinset, g ∉ ((A : Multiset JStr) ∩ (B : Multiset JStr)).toFinset →
      min (A.count g) (B.count g) = 0 := by
    intro g hgA hg
    rw [Multiset.mem_toFinset, Multiset.mem_inter, not_and_or] at hg
    rw [List.mem_toFinset] at hgA
    rcases hg with h | h
    · exact absurd (by exact_mod_cast hgA) h
    · have : B.count g = 0 := by
        rw [List.count_eq_zero]
        intro hc
        exact h (by exact_mod_cast hc)
      omega
  have hcongr : ∀ g ∈ ((A : Multiset JStr) ∩ (B : Multiset JStr)).toFinset,
      min (A.count g) (B.count g) = ((A : Multiset JStr) ∩ (B : Multiset JStr)).count g := by
    intro g _
    rw [Multiset.count_inter]
    simp only [Multiset.coe_count]
    rw [count_beq_irrel g A, count_beq_irrel g B]
  calc ((A.dedup.map fun g => min (A.count g) (B.count g)).sum)
      = ∑ g ∈ A.toFinset, min (A.count g) (B.count g) := rfl
    _ = ∑ g ∈ ((A : Multiset JStr) ∩ (B : Multiset JStr)).toFinset,
          min (A.count g) (B.count g) := (Finset.sum_subset hsub hzero).symm
    _ = ∑ g ∈ ((A : Multiset JStr) ∩ (B : Multiset JStr)).toFinset,
          ((A : Multiset JStr) ∩ (B : Multiset JStr)).count g := Finset.sum_congr rfl hcongr
    _ = Multiset.card ((A : Multiset JStr) ∩ (B : Multiset JStr)) :=
        Multiset.toFinset_sum_count_eq _

/-- The bigram intersection count is symmetric in its two arguments. -/
lemma bigramIntersection_comm (a b : JStr) :
    bigramIntersection a b = bigramIntersection b a := by
  unfold bigramIntersection
  dsimp only
  rw [dedup_map_min_count_sum (bigrams a) (bigrams b),
    dedup_map_min_count_sum (bigrams b) (bigrams a), Multiset.inter_comm]

/-- C7: `bigramSimilarity` is reflexively `1.0`, is `0` for distinct strings
when either has fewer than 2 characters, and is symmetric. -/
theorem bigramSimilarity_one_zero_symm :
    (∀ a : JStr, bigramSimilarity a a = 1) ∧
    (∀ a b : JStr, a ≠ b → (a.length < 2 ∨ b.length < 2) → bigramSimilarity a b = 0) ∧
    (∀ a b : JStr, bigramSimilarity a b = bigramSimilarity b a) := by
  refine ⟨fun a => by simp [bigramSimilarity],
    fun a b hne hlen => by rw [bigramSimilarity, if_neg hne, if_pos hlen],
    fun a b => ?_⟩
  by_cases h : a = b
  · subst h; rfl
  · have h' : b ≠ a := fun e => h e.symm
    rw [bigramSimilarity, bigramSimilarity, if_neg h, if_neg h']
    by_cases hl : a.length < 2 ∨ b.length < 2
    · rw [if_pos hl, if_pos (Or.symm hl)]
    · rw [if_neg hl, if_neg (fun hc => hl (Or.symm hc))]
      rw [bigramIntersection_comm, add_comm]

/-- Witness for C7 at concrete inputs. -/
theorem bigramSimilarity_one_zero_symm_witness :
    bigramSimilarity (js "ab") (js "ab") = 1 ∧
    (js "a" ≠ js "b" ∧ bigramSimilarity (js "a") (js "b") = 0) ∧
    bigramSimilarity (js "ab") (js "cd") = bigramSimilarity (js "cd") (js "ab") :=
  ⟨bigramSimilarity_one_zero_symm.1 _,
    ⟨by decide, bigramSimilarity_one_zero_symm.2.1 _ _ (by decide) (by decide)⟩,
    bigramSimilarity_one_zero_symm.2.2 _ _⟩

/-- C1: the claimed safety property fails on the code as written — the
Phase 1 outward scan is not bounded above by the document extent on the
negative side (`hintLine - d >= lo` with `lo = max(0, hintLine - radius)`
does not imply `hintLine - d < docLines.length`), so for the one-line
document `["a"]`, snippet `"b"` and `hintLine = 2` the code reads
`docLines[1]`, which is `undefined`, and `.startsWith` throws a `TypeError`
instead of returning a result or `null`.  The hint probe itself is fully
bounds-checked, so the bounded scan is the evident intent and the missing
clip is a slip in the code; the reconciler reaches this input whenever a
document shrinks below a stored anchor line. -/
theorem findLineBySnippet_crashes_on_out_of_range_hint :
    findLineBySnippet [js "a"] (js "b") 2 50 = .crash := by decide

/-- `fuzzyStep` written in terms of `candSim`. -/
lemma fuzzyStep_eq (docLines : List JStr) (snippet : JStr) (hintLine : ℤ)
    (st : Option (ℤ × ℚ × ℤ)) (i : ℤ) :
    fuzzyStep docLines snippet hintLine st i =
      if (7:ℚ)/10 ≤ candSim docLines snippet i then
        match st with
        | none => some (i, candSim docLines snippet i, |i - hintLine|)
        | some (bl, bs, bd) =>
          if bs < candSim docLines snippet i ∨
              (candSim docLines snippet i = bs ∧ |i - hintLine| < bd) then
            some (i, candSim docLines snippet i, |i - hintLine|)
          else some (bl, bs, bd)
      else st := rfl

lemma fuzzyStep_inv (docLines : List JStr) (snippet : JStr) (hintLine : ℤ)
    (scanned : List ℤ) (st : Option (ℤ × ℚ × ℤ)) (i : ℤ)
    (h : FuzzyInv docLines snippet hintLine scanned st) :
    FuzzyInv docLines snippet hintLine (scanned ++ [i])
      (fuzzyStep docLines snippet hintLine st i) := by
  rw [fuzzyStep_eq]
  by_cases hsim : (7:ℚ)/10 ≤ candSim docLines snippet i
  · rw [if_pos hsim]
    match st with
    | none =>
      refine ⟨List.mem_append_right _ (List.mem_singleton_self i), rfl, rfl, hsim, ?_⟩
      intro j hj hj7
      rcases List.mem_append.1 hj with hj | hj
      · exact absurd hj7 (h j hj)
      · rw [List.mem_singleton.1 hj]
        exact Or.inr ⟨rfl, le_refl _⟩
    | some (bl, bs, bd) =>
      dsimp only
      obtain ⟨hmem, hbs, hbd, hb7, hbest⟩ := h
      by_cases hrepl : bs < candSim docLines snippet i ∨
          (candSim docLines snippet i = bs ∧ |i - hintLine| < bd)
      · rw [if_pos hrepl]
        refine ⟨List.mem_append_right _ (List.mem_singleton_self i), rfl, rfl, hsim, ?_⟩
        intro j hj hj7
        rcases List.mem_append.1 hj with hj | hj
        · rcases hbest j hj hj7 with hlt | ⟨heq, hle⟩
          · rcases hrepl with hr | ⟨hreq, _⟩
            · exact Or.inl (lt_trans hlt hr)
            · exact Or.inl (hreq ▸ hlt)
          · rcases hrepl with hr | ⟨hreq, hrd⟩
            · exact Or.inl (heq ▸ hr)
            · exact Or.inr ⟨heq.trans hreq.symm, le_trans (le_of_lt hrd) hle⟩
        · rw [List.mem_singleton.1 hj]
          exact Or.inr ⟨rfl, le_refl _⟩
      · rw [if_neg hrepl]
        push_neg at hrepl
        obtain ⟨hle, htie⟩ := hrepl
        refine ⟨List.mem_append_left _ hmem, hbs, hbd, hb7, ?_⟩
        intro j hj hj7
        rcases List.mem_append.1 hj with hj | hj
        · exact hbest j hj hj7
        · rw [List.mem_singleton.1 hj]
          rcases lt_or_eq_of_le hle with hlt | heq
          · exact Or.inl hlt
          · exact Or.inr ⟨heq, htie heq⟩
  · rw [if_neg hsim]
    match st with
    | none =>
      intro j hj
      rcases List.mem_append.1 hj with hj | hj
      · exact h j hj
      · rw [List.mem_singleton.1 hj]
        exact hsim
    | some (bl, bs, bd) =>
      obtain ⟨hmem, hbs, hbd, hb7, hbest⟩ := h
      refine ⟨List.mem_append_left _ hmem, hbs, hbd, hb7, ?_⟩
      intro j hj hj7
      rcases List.mem_append.1 hj with hj | hj
      · exact hbest j hj hj7
      · rw [List.mem_singleton.1 hj] at hj7
        exact absurd hj7 hsim

lemma foldl_fuzzyStep_inv (docLines : List JStr) (snippet : JStr) (hintLine : ℤ) :
    ∀ (l scanned : List ℤ) (st : Option (ℤ × ℚ × ℤ)),
      FuzzyInv docLines snippet hintLine scanned st →
      FuzzyInv docLines snippet hintLine (scanned ++ l)
        (l.foldl (fuzzyStep docLines snippet hintLine) st)
  | [], scanned, st, h => by simpa using h
  | i :: l, scanned, st, h => by
    rw [List.foldl_cons]
    have h' := foldl_fuzzyStep_inv docLines snippet hintLine l (scanned ++ [i])
      (fuzzyStep docLines snippet hintLine st i)
      (fuzzyStep_inv docLines snippet hintLine scanned st i h)
    simpa [List.append_assoc] using h'

/-- C6: in the fuzzy phase (no exact match in the hint probe or Phase 1),
any returned line is an accepted candidate (similarity at least `0.7`) of
maximal similarity within the clipped window, with ties broken by smaller
absolute distance to the hint; if no candidate reaches `0.7` the result is
`notFound`.  In particular a strictly more similar candidate wins over a
closer one. -/
theorem findLineBySnippet_fuzzy_best (docLines : List JStr) (snippet : JStr)
    (hintLine lo hi : ℤ) (radius : ℕ)
    (hlo : lo = max 0 (hintLine - radius))
    (hhi : hi = min ((docLines.length : ℤ) - 1) (hintLine + radius))
    (hsnip : snippet ≠ [])
    (hhint : ¬(0 ≤ hintLine ∧ hintLine < (docLines.length : ℤ) ∧
        jsStartsWith ((jsIndex docLines hintLine).getD []) snippet = true))
    (hp1 : phase1Loop docLines snippet hintLine lo hi 1 radius = none) :
    (∀ l conf, findLineBySnippet docLines snippet hintLine radius = .found l conf →
        l ∈ intRange lo hi ∧ conf = candSim docLines snippet l ∧ (7:ℚ)/10 ≤ conf ∧
        ∀ i ∈ intRange lo hi, (7:ℚ)/10 ≤ candSim docLines snippet i →
          candSim docLines snippet i < conf ∨
            (candSim docLines snippet i = conf ∧ |l - hintLine| ≤ |i - hintLine|)) ∧
    ((∀ i ∈ intRange lo hi, ¬((7:ℚ)/10 ≤ candSim docLines snippet i)) →
        findLineBySnippet docLines snippet hintLine radius = .notFound) := by
  subst hlo hhi
  have hbase : FuzzyInv docLines snippet hintLine [] none :=
    fun i h => absurd h (List.not_mem_nil i)
  have hinv := foldl_fuzzyStep_inv docLines snippet hintLine
    (intRange (max 0 (hintLine - radius))
      (min ((docLines.length : ℤ) - 1) (hintLine + radius))) [] none hbase
  simp only [List.nil_append] at hinv
  have hunfold : findLineBySnippet docLines snippet hintLine radius =
      match (intRange (max 0 (hintLine - radius))
          (min ((docLines.length : ℤ) - 1) (hintLine + radius))).foldl
          (fuzzyStep docLines snippet hintLine) none with
      | some (bl, bs, _) => .found bl bs
      | none => .notFound := by
    simp only [findLineBySnippet]
    rw [if_neg hsnip, if_neg hhint, hp1]
  cases hfold : (intRange (max 0 (hintLine - radius))
      (min ((docLines.length : ℤ) - 1) (hintLine + radius))).foldl
      (fuzzyStep docLines snippet hintLine) none with
  | none =>
    rw [hfold] at hunfold hinv
    constructor
    · intro l conf heq
      rw [hunfold] at heq
      exact absurd heq (by simp)
    · intro _
      exact hunfold
  | some best =>
    obtain ⟨bl, bs, bd⟩ := best
    rw [hfold] at hunfold hinv
    obtain ⟨hmem, hbs, hbd, hb7, hbest⟩ := hinv
    subst hbd
    constructor
    · intro l conf heq
      rw [hunfold] at heq
      cases heq
      exact ⟨hmem, hbs, hb7, hbest⟩
    · intro hno
      exact absurd (hbs ▸ hb7) (hno bl hmem)

/-- Witness for C6: document `["zzzz", "abcdx"]`, snippet `"abcde"`, hint `0`,
radius `2` — no exact match anywhere, so the fuzzy phase decides. -/
theorem findLineBySnippet_fuzzy_best_witness :
    ((0:ℤ) = max 0 (0 - ((2:ℕ):ℤ)) ∧
      (1:ℤ) = min ((([js "zzzz", js "abcdx"] : List JStr).length : ℤ) - 1) (0 + ((2:ℕ):ℤ)) ∧
      js "abcde" ≠ [] ∧
      ¬(0 ≤ (0:ℤ) ∧ (0:ℤ) < (([js "zzzz", js "abcdx"] : List JStr).length : ℤ) ∧
          jsStartsWith ((jsIndex [js "zzzz", js "abcdx"] 0).getD []) (js "abcde") = true) ∧
      phase1Loop [js "zzzz", js "abcdx"] (js "abcde") 0 0 1 1 2 = none) ∧
    ((∀ l conf, findLineBySnippet [js "zzzz", js "abcdx"] (js "abcde") 0 2 = .found l conf →
        l ∈ intRange 0 1 ∧ conf = candSim [js "zzzz", js "abcdx"] (js "abcde") l ∧
        (7:ℚ)/10 ≤ conf ∧
        ∀ i ∈ intRange 0 1, (7:ℚ)/10 ≤ candSim [js "zzzz", js "abcdx"] (js "abcde") i →
          candSim [js "zzzz", js "abcdx"] (js "abcde") i < conf ∨
            (candSim [js "zzzz", js "abcdx"] (js "abcde") i = conf ∧ |l - 0| ≤ |i - 0|)) ∧
      ((∀ i ∈ intRange 0 1, ¬((7:ℚ)/10 ≤ candSim [js "zzzz", js "abcdx"] (js "abcde") i)) →
          findLineBySnippet [js "zzzz", js "abcdx"] (js "abcde") 0 2 = .notFound)) :=
  ⟨⟨by decide, by decide, by decide, by decide, by decide⟩,
    findLineBySnippet_fuzzy_best [js "zzzz", js "abcdx"] (js "abcde") 0 0 1 2
      (by decide) (by decide) (by decide) (by decide) (by decide)⟩

lemma alGet_alSet_self {α : Type} (l : List (String × α)) (k : String) (v : α) :
    alGet (alSet l k v) k = some v := by
  induction l with
  | nil => simp [alGet, alSet, List.find?]
  | cons p t ih =>
    obtain ⟨k', v'⟩ := p
    by_cases h : k' = k
    · subst h
      simp [alGet, alSet, List.find?]
    · simp only [alSet, if_neg h]
      simp only [alGet, List.find?] at ih ⊢
      have : (k' == k) = false := beq_false_of_ne h
      rw [this]
      exact ih

/-- After a successful `getComments`, the returned file is cached under the
requested note path. -/
lemma getComments_cached (st : MgrState) (notePath : String) (cf : CommentFile)
    (h : (getComments st notePath).2 = some cf) :
    alGet (getComments st notePath).1.cache notePath = some cf := by
  cases hc : alGet st.cache notePath with
  | some cached =>
    have hg : getComments st notePath = (st, some cached) := by
      unfold getComments; rw [hc]
    rw [hg] at h ⊢
    simp only at h ⊢
    rw [← Option.some_inj.1 h]
    exact hc
  | none =>
    cases hv : alGet st.vault (commentsPath notePath) with
    | none =>
      have hg : getComments st notePath = (st, none) := by
        unfold getComments; rw [hc, hv]
      rw [hg] at h
      simp at h
    | some cf' =>
      have hg : getComments st notePath
          = ({ st with cache := alSet st.cache notePath cf' }, some cf') := by
        unfold getComments; rw [hc, hv]
      rw [hg] at h ⊢
      simp only [Option.some_inj] at h
      subst h
      simpa using alGet_alSet_self st.cache notePath cf'

lemma updateFirst_append (p : Comment → Bool) (f : Comment → Comment)
    (pre : List Comment) (c : Comment) (post : List Comment)
    (hpre : ∀ c' ∈ pre, p c' = false) (hc : p c = true) :
    updateFirst p f (pre ++ c :: post) = pre ++ f c :: post := by
  induction pre with
  | nil => simp [updateFirst, hc]
  | cons a t ih =>
    have ha : p a = false := hpre a (List.mem_cons_self a t)
    simp only [List.cons_append, updateFirst, ha, Bool.false_eq_true, if_false, List.cons.injEq,
      true_and]
    exact ih (fun c' h' => hpre c' (List.mem_cons_of_mem a h'))

/-- C8: adding a reply to a `resolved` annotation reopens it — `status`
becomes `open`, `resolved_at`/`resolved_by` are cleared, and
`last_activity_at` becomes the reply's `created_at`; and the manager's
`addReply` applies exactly this update to the first comment with the
requested id, leaving the result in the cache. -/
theorem addReply_reopens_resolved :
    (∀ (c : Comment) (reply : CommentReply) (now : String), c.status = .resolved →
      (applyReply reply now c).status = CommentStatus.«open» ∧
      (applyReply reply now c).resolved_at = none ∧
      (applyReply reply now c).resolved_by = none ∧
      (applyReply reply now c).last_activity_at = reply.created_at) ∧
    (∀ (st : MgrState) (notePath commentId : String) (reply : CommentReply) (now : String)
        (writeOk : Bool) (cf : CommentFile) (pre post : List Comment) (c : Comment),
      (getComments st notePath).2 = some cf →
      cf.note_path = notePath →
      cf.comments = pre ++ c :: post →
      (∀ c' ∈ pre, (c'.id == commentId) = false) →
      (c.id == commentId) = true →
      ∃ cf', alGet (addReply st notePath commentId reply now writeOk).1.cache notePath
          = some cf' ∧
        cf'.comments = pre ++ applyReply reply now c :: post) := by
  constructor
  · intro c reply now hres
    unfold applyReply
    simp only [hres]
    simp
  · intro st notePath commentId reply now writeOk cf pre post c hget hpath hsplit hpre hcid
    have hcache := getComments_cached st notePath cf hget
    have hany : cf.comments.any (fun c' => c'.id == commentId) = true := by
      rw [hsplit]
      simp only [List.any_append, List.any_cons, hcid, Bool.true_or, Bool.or_true]
    simp only [addReply]
    rw [hget]
    dsimp only
    rw [hany]
    simp only [if_true]
    unfold saveComments
    dsimp only
    rw [hpath, hcache]
    simp only [Option.isSome_some, if_true]
    have hcomm : (updateFirst (fun c' => c'.id == commentId) (applyReply reply now) cf.comments)
        = pre ++ applyReply reply now c :: post := by
      rw [hsplit]
      exact updateFirst_append _ _ pre c post hpre hcid
    cases writeOk with
    | true =>
      simp only [if_true]
      exact ⟨_, alGet_alSet_self _ _ _, by dsimp only; exact hcomm⟩
    | false =>
      simp only [Bool.false_eq_true, if_false]
      exact ⟨_, alGet_alSet_self _ _ _, by dsimp only; exact hcomm⟩

/-- Witness for C8 at a concrete resolved comment and store. -/
theorem addReply_reopens_resolved_witness :
    (wComment.status = CommentStatus.resolved ∧
      (applyReply wReply "t1" wComment).status = CommentStatus.«open» ∧
      (applyReply wReply "t1" wComment).resolved_at = none ∧
      (applyReply wReply "t1" wComment).resolved_by = none ∧
      (applyReply wReply "t1" wComment).last_activity_at = wReply.created_at) ∧
    ((getComments wState "n.md").2 = some wFile ∧
      wFile.note_path = "n.md" ∧
      wFile.comments = [] ++ wComment :: [] ∧
      (∀ c' ∈ ([] : List Comment), (c'.id == "c1") = false) ∧
      (wComment.id == "c1") = true ∧
      ∃ cf', alGet (addReply wState "n.md" "c1" wReply "t1" true).1.cache "n.md" = some cf' ∧
        cf'.comments = [] ++ applyReply wReply "t1" wComment :: []) :=
  ⟨⟨by decide, addReply_reopens_resolved.1 wComment wReply "t1" (by decide)⟩,
    ⟨by decide, by decide, by decide, by decide, by decide,
      addReply_reopens_resolved.2 wState "n.md" "c1" wReply "t1" true wFile [] [] wComment
        (by decide) (by decide) (by decide) (by decide) (by decide)⟩⟩

/-- JS `Map.set` twice with the same key and value is one `set`. -/
lemma alSet_alSet_self {α : Type} (l : List (String × α)) (k : String) (v : α) :
    alSet (alSet l k v) k v = alSet l k v := by
  induction l with
  | nil => simp [alSet]
  | cons p t ih =>
    obtain ⟨k', v'⟩ := p
    by_cases h : k' = k
    · subst h
      simp [alSet]
    · simp only [alSet, if_neg h]
      rw [ih]

/-- C4, counterexample: on a cached store, `addReply` whose underlying write
rejects reports failure, leaves the persisted file unchanged, yet the cache
no longer holds the persisted state — the fully-applied mutation stays
visible in the cache, a state that was neither persisted nor about to be. -/
theorem saveFailure_cache_diverges_counterexample :
    (addReply wState "n.md" "c1" wReply "t1" false).2 = WriteOutcome.failed ∧
    alGet (addReply wState "n.md" "c1" wReply "t1" false).1.vault "n.md.comments"
      = some wFile ∧
    alGet (addReply wState "n.md" "c1" wReply "t1" false).1.cache "n.md" ≠ some wFile := by
  decide

/-- C4 (amended): a failed write never leaves a *partially*-applied mutation:
for `addReply` and `resolveComment` on a cached store the cache after a
failed write equals the cache after a successful one (the mutation is applied
in full to the cached object before the write is attempted), and `addComment`
on a document with no cached and no persisted store leaves the cache without
any entry when the write fails.  (The cache can, however, diverge from the
persisted store — see the counterexample.) -/
theorem saveFailure_cache_fully_applied :
    (∀ (st : MgrState) (notePath commentId : String) (reply : CommentReply) (now : String)
        (cf : CommentFile),
      (getComments st notePath).2 = some cf → cf.note_path = notePath →
      (addReply st notePath commentId reply now false).1.cache =
        (addReply st notePath commentId reply now true).1.cache) ∧
    (∀ (st : MgrState) (notePath commentId resolvedBy now : String) (cf : CommentFile),
      (getComments st notePath).2 = some cf → cf.note_path = notePath →
      (resolveComment st notePath commentId resolvedBy now false).1.cache =
        (resolveComment st notePath commentId resolvedBy now true).1.cache) ∧
    (∀ (st : MgrState) (notePath : String) (comment : Comment) (now : String),
      alGet st.cache notePath = none → alGet st.vault (commentsPath notePath) = none →
      (addComment st notePath comment now false).1.cache = st.cache) := by
  refine ⟨?_, ?_, ?_⟩
  · intro st notePath commentId reply now cf hget hpath
    have hcache := getComments_cached st notePath cf hget
    simp only [addReply]
    rw [hget]
    dsimp only
    by_cases hany : cf.comments.any (fun c => c.id == commentId) = true
    · rw [hany]
      simp only [if_true]
      unfold saveComments
      dsimp only
      rw [hpath, hcache]
      simp only [Option.isSome_some, if_true, Bool.false_eq_true, if_false]
      exact (alSet_alSet_self _ _ _).symm
    · rw [Bool.not_eq_true] at hany
      rw [hany]
      simp only [Bool.false_eq_true, if_false]
  · intro st notePath commentId resolvedBy now cf hget hpath
    have hcache := getComments_cached st notePath cf hget
    simp only [resolveComment]
    rw [hget]
    dsimp only
    by_cases hany : cf.comments.any (fun c => c.id == commentId) = true
    · rw [hany]
      simp only [if_true]
      unfold saveComments
      dsimp only
      rw [hpath, hcache]
      simp only [Option.isSome_some, if_true, Bool.false_eq_true, if_false]
      exact (alSet_alSet_self _ _ _).symm
    · rw [Bool.not_eq_true] at hany
      rw [hany]
      simp only [Bool.false_eq_true, if_false]
  · intro st notePath comment now hc hv
    simp only [addComment, getComments]
    rw [hc, hv]
    dsimp only
    unfold saveComments
    dsimp only [Option.getD_none, createEmptyCommentFile]
    simp only [Bool.false_eq_true, if_false]
    rw [hc]
    simp only [Option.isSome_none, Bool.false_eq_true, if_false]

/-- Witness for C4's amended theorem at concrete states. -/
theorem saveFailure_cache_fully_applied_witness :
    ((getComments wState "n.md").2 = some wFile ∧ wFile.note_path = "n.md" ∧
      (addReply wState "n.md" "c1" wReply "t1" false).1.cache =
        (addReply wState "n.md" "c1" wReply "t1" true).1.cache) ∧
    ((resolveComment wState "n.md" "c1" "al" "t1" false).1.cache =
        (resolveComment wState "n.md" "c1" "al" "t1" true).1.cache) ∧
    (alGet (MgrState.mk [] []).cache "m.md" = none ∧
      alGet (MgrState.mk [] []).vault (commentsPath "m.md") = none ∧
      (addComment (MgrState.mk [] []) "m.md" wComment "t1" false).1.cache =
        (MgrState.mk [] []).cache) :=
  ⟨⟨by decide, by decide,
      saveFailure_cache_fully_applied.1 wState "n.md" "c1" wReply "t1" wFile
        (by decide) (by decide)⟩,
    saveFailure_cache_fully_applied.2.1 wState "n.md" "c1" "al" "t1" wFile
      (by decide) (by decide),
    ⟨by decide, by decide,
      saveFailure_cache_fully_applied.2.2 (MgrState.mk [] []) "m.md" wComment "t1"
        (by decide) (by decide)⟩⟩

/-- Right-trimming only removes a suffix. -/
lemma trimEnd_isPre (s : JStr) : trimEnd s <+: s := by
  exact List.rdropWhile_prefix _ _

/-- The captured snippet is a prefix of the line it was captured from. -/
lemma captureSnippet_isPre (line : JStr) : captureSnippet line <+: line := by
  have h2 : line.take 50 <+: line := by exact List.take_prefix _ _
  exact (trimEnd_isPre (line.take 50)).trans h2

/-- A successful `jsIndex` read is in bounds. -/
lemma jsIndex_bounds {xs : List JStr} {i : ℤ} {l : JStr} (h : jsIndex xs i = some l) :
    0 ≤ i ∧ i < (xs.length : ℤ) := by
  unfold jsIndex at h
  by_cases h0 : 0 ≤ i
  · rw [if_pos h0] at h
    refine ⟨h0, ?_⟩
    have := List.getElem?_eq_some.1 h
    obtain ⟨hlt, _⟩ := this
    omega
  · rw [if_neg h0] at h
    exact absurd h (by simp)

/-- C10: every line starts with its own captured snippet, and an annotation
whose snippet was captured from the line it anchors passes the reconciler's
`startsWith` verification. -/
theorem captured_snippet_verifies :
    (∀ line : JStr, jsStartsWith line (captureSnippet line) = true) ∧
    (∀ (docLines : List JStr) (c : Comment) (line : JStr),
      jsIndex docLines (c.location.start_line - 1) = some line →
      c.content_snippet = some (captureSnippet line) →
      anchorVerified docLines c) := by
  have hpre : ∀ line : JStr, jsStartsWith line (captureSnippet line) = true := by
    intro line
    unfold jsStartsWith
    exact List.isPrefixOf_iff_prefix.mpr (captureSnippet_isPre line)
  refine ⟨hpre, ?_⟩
  intro docLines c line hidx hsnip
  obtain ⟨h0, hlt⟩ := jsIndex_bounds hidx
  refine ⟨h0, hlt, ?_⟩
  rw [hidx, hsnip]
  exact hpre line

/-- Witness for C10 at a concrete line and annotation. -/
theorem captured_snippet_verifies_witness :
    jsStartsWith (js "hello world") (captureSnippet (js "hello world")) = true ∧
    (jsIndex [js "hello world"] ((1:ℤ) - 1)
        = some (js "hello world") ∧
      anchorVerified [js "hello world"]
        { wComment with
          location := { start_line := 1, start_char := 0, end_line := 1, end_char := 0 },
          content_snippet := some (captureSnippet (js "hello world")) }) :=
  ⟨captured_snippet_verifies.1 (js "hello world"),
    ⟨by decide,
      captured_snippet_verifies.2 [js "hello world"]
        { wComment with
          location := { start_line := 1, start_char := 0, end_line := 1, end_char := 0 },
          content_snippet := some (captureSnippet (js "hello world")) }
        (js "hello world") (by decide) (by decide)⟩⟩

/-- C2, counterexample: for the cached store holding one annotation with no
snippet, anchored on an empty line of an unchanged document, the second
reconciler run performs a store write again (the backfill branch records an
empty snippet, which stays falsy, and sets the changed flag on every run) —
so running twice is not idempotent as claimed. -/
theorem reconciler_second_run_writes_counterexample :
    secondRunWrites wState "n.md" (some (js "\na")) "t1" "t2" = some 1 := by decide

/-- An in-bounds `jsIndex` read succeeds. -/
lemma jsIndex_isSome_of_bounds (xs : List JStr) (i : ℤ)
    (h0 : 0 ≤ i) (hl : i < (xs.length : ℤ)) : ∃ l, jsIndex xs i = some l := by
  unfold jsIndex
  rw [if_pos h0]
  have hlt : i.toNat < xs.length := by omega
  exact ⟨xs[i.toNat], List.getElem?_eq_getElem hlt⟩

/-- With an in-range hint, one Phase 1 probe never reads out of bounds. -/
lemma phase1Step_no_crash (docLines : List JStr) (snippet : JStr)
    (hintLine lo hi : ℤ) (d : ℕ)
    (h0 : 0 ≤ hintLine) (hlen : hintLine < (docLines.length : ℤ))
    (hlo : 0 ≤ lo) (hhi : hi ≤ (docLines.length : ℤ) - 1) (hd : 1 ≤ d) :
    phase1Step docLines snippet hintLine lo hi d ≠ some FindLineResult.crash := by
  have hpos : phase1StepPos docLines snippet hintLine hi d ≠ some FindLineResult.crash := by
    unfold phase1StepPos
    by_cases hc : hintLine + d ≤ hi
    · rw [if_pos hc]
      obtain ⟨l, hl⟩ := jsIndex_isSome_of_bounds docLines (hintLine + d)
        (by omega) (by omega)
      rw [hl]
      by_cases hsw : jsStartsWith l snippet = true
      · simp [hsw]
      · rw [Bool.not_eq_true] at hsw
        simp [hsw]
    · rw [if_neg hc]
      simp
  unfold phase1Step
  by_cases hc : lo ≤ hintLine - d
  · rw [if_pos hc]
    obtain ⟨l, hl⟩ := jsIndex_isSome_of_bounds docLines (hintLine - d)
      (by omega) (by omega)
    rw [hl]
    by_cases hsw : jsStartsWith l snippet = true
    · simp [hsw]
    · rw [Bool.not_eq_true] at hsw
      simpa [hsw] using hpos
  · rw [if_neg hc]
    exact hpos

/-- With an in-range hint, the whole Phase 1 loop never crashes. -/
lemma phase1Loop_no_crash (docLines : List JStr) (snippet : JStr)
    (hintLine lo hi : ℤ)
    (h0 : 0 ≤ hintLine) (hlen : hintLine < (docLines.length : ℤ))
    (hlo : 0 ≤ lo) (hhi : hi ≤ (docLines.length : ℤ) - 1) :
    ∀ (fuel d : ℕ), 1 ≤ d →
      phase1Loop docLines snippet hintLine lo hi d fuel ≠ some FindLineResult.crash := by
  intro fuel
  induction fuel with
  | zero => intro d _; simp [phase1Loop]
  | succ n ih =>
    intro d hd
    unfold phase1Loop
    cases hstep : phase1Step docLines snippet hintLine lo hi d with
    | some r =>
      dsimp only
      have := phase1Step_no_crash docLines snippet hintLine lo hi d h0 hlen hlo hhi hd
      rw [hstep] at this
      exact this
    | none =>
      dsimp only
      exact ih (d + 1) (by omega)

/-- A Phase 1 early return carries a line that was actually read and starts
with the snippet. -/
lemma phase1Step_found_spec (docLines : List JStr) (snippet : JStr)
    (hintLine lo hi : ℤ) (d : ℕ) (l : ℤ) (conf : ℚ)
    (h : phase1Step docLines snippet hintLine lo hi d = some (.found l conf)) :
    ∃ line, jsIndex docLines l = some line ∧ jsStartsWith line snippet = true := by
  have hpos : phase1StepPos docLines snippet hintLine hi d = some (.found l conf) →
      ∃ line, jsIndex docLines l = some line ∧ jsStartsWith line snippet = true := by
    intro hp
    unfold phase1StepPos at hp
    by_cases hc : hintLine + d ≤ hi
    · rw [if_pos hc] at hp
      cases hidx : jsIndex docLines (hintLine + d) with
      | none => rw [hidx] at hp; simp at hp
      | some line =>
        rw [hidx] at hp
        dsimp only at hp
        by_cases hsw : jsStartsWith line snippet = true
        · rw [if_pos hsw] at hp
          simp only [Option.some_inj, FindLineResult.found.injEq] at hp
          exact ⟨line, by rw [← hp.1]; exact hidx, hsw⟩
        · rw [Bool.not_eq_true] at hsw
          rw [hsw] at hp
          simp at hp
    · rw [if_neg hc] at hp
      simp at hp
  unfold phase1Step at h
  by_cases hc : lo ≤ hintLine - d
  · rw [if_pos hc] at h
    cases hidx : jsIndex docLines (hintLine - d) with
    | none => rw [hidx] at h; simp at h
    | some line =>
      rw [hidx] at h
      dsimp only at h
      by_cases hsw : jsStartsWith line snippet = true
      · rw [if_pos hsw] at h
        simp only [Option.some_inj, FindLineResult.found.injEq] at h
        exact ⟨line, by rw [← h.1]; exact hidx, hsw⟩
      · rw [Bool.not_eq_true] at hsw
        rw [hsw] at h
        simp only [Bool.false_eq_true, if_false] at h
        exact hpos h
  · rw [if_neg hc] at h
    exact hpos h

/-- The Phase 1 loop's early return satisfies the same specification. -/
lemma phase1Loop_found_spec (docLines : List JStr) (snippet : JStr)
    (hintLine lo hi : ℤ) (l : ℤ) (conf : ℚ) :
    ∀ (fuel d : ℕ),
      phase1Loop docLines snippet hintLine lo hi d fuel = some (.found l conf) →
      ∃ line, jsIndex docLines l = some line ∧ jsStartsWith line snippet = true := by
  intro fuel
  induction fuel with
  | zero => intro d h; simp [phase1Loop] at h
  | succ n ih =>
    intro d h
    unfold phase1Loop at h
    cases hstep : phase1Step docLines snippet hintLine lo hi d with
    | some r =>
      rw [hstep] at h
      dsimp only at h
      rw [Option.some_inj.1 h] at hstep
      exact phase1Step_found_spec docLines snippet hintLine lo hi d l conf hstep
    | none =>
      rw [hstep] at h
      dsimp only at h
      exact ih (d + 1) h

/-- Members of `intRangeGo`. -/
lemma mem_intRangeGo (i : ℤ) : ∀ (n : ℕ) (lo : ℤ), i ∈ intRangeGo lo n ↔ lo ≤ i ∧ i < lo + n := by
  intro n
  induction n with
  | zero => intro lo; simp [intRangeGo]
  | succ m ih =>
    intro lo
    simp only [intRangeGo, List.mem_cons, ih (lo + 1)]
    constructor
    · rintro (rfl | ⟨h1, h2⟩)
      · omega
      · omega
    · intro ⟨h1, h2⟩
      by_cases he : i = lo
      · exact Or.inl he
      · exact Or.inr ⟨by omega, by omega⟩

/-- Members of `intRange`. -/
lemma mem_intRange (i lo hi : ℤ) : i ∈ intRange lo hi ↔ lo ≤ i ∧ i ≤ hi := by
  unfold intRange
  rw [mem_intRangeGo]
  omega

/-- With an in-range hint the matcher never crashes. -/
lemma findLineBySnippet_no_crash (docLines : List JStr) (snippet : JStr)
    (hintLine : ℤ) (radius : ℕ)
    (h0 : 0 ≤ hintLine) (hlen : hintLine < (docLines.length : ℤ)) :
    findLineBySnippet docLines snippet hintLine radius ≠ .crash := by
  simp only [findLineBySnippet]
  by_cases hs : snippet = []
  · rw [if_pos hs]
    simp
  · rw [if_neg hs]
    by_cases hhint : 0 ≤ hintLine ∧ hintLine < (docLines.length : ℤ) ∧
        jsStartsWith ((jsIndex docLines hintLine).getD []) snippet = true
    · rw [if_pos hhint]
      simp
    · rw [if_neg hhint]
      cases hp : phase1Loop docLines snippet hintLine (max 0 (hintLine - radius))
          (min ((docLines.length : ℤ) - 1) (hintLine + radius)) 1 radius with
      | some r =>
        dsimp only
        have := phase1Loop_no_crash docLines snippet hintLine
          (max 0 (hintLine - radius)) (min ((docLines.length : ℤ) - 1) (hintLine + radius))
          h0 hlen (le_max_left 0 _) (min_le_left _ _) radius 1 (le_refl 1)
        rw [hp] at this
        intro hcon
        rw [hcon] at this
        exact this rfl
      | none =>
        dsimp only
        cases hfold : (intRange (max 0 (hintLine - radius))
            (min ((docLines.length : ℤ) - 1) (hintLine + radius))).foldl
            (fuzzyStep docLines snippet hintLine) none with
        | none => simp
        | some best => obtain ⟨bl, bs, bd⟩ := best; simp

/-- Specification of a successful relocation: the returned line is in bounds
and either starts with the snippet (exact phase) or its trimmed 50-character
prefix is at least `0.7`-similar to it (fuzzy phase). -/
lemma findLineBySnippet_found_spec (docLines : List JStr) (snippet : JStr)
    (hintLine : ℤ) (radius : ℕ) (l : ℤ) (conf : ℚ)
    (h : findLineBySnippet docLines snippet hintLine radius = .found l conf) :
    0 ≤ l ∧ l < (docLines.length : ℤ) ∧
      (jsStartsWith ((jsIndex docLines l).getD []) snippet = true ∨
        (7:ℚ)/10 ≤ bigramSimilarity snippet (trimEnd (((jsIndex docLines l).getD []).take 50))) := by
  simp only [findLineBySnippet] at h
  by_cases hs : snippet = []
  · rw [if_pos hs] at h
    exact absurd h (by simp)
  · rw [if_neg hs] at h
    by_cases hhint : 0 ≤ hintLine ∧ hintLine < (docLines.length : ℤ) ∧
        jsStartsWith ((jsIndex docLines hintLine).getD []) snippet = true
    · rw [if_pos hhint] at h
      simp only [FindLineResult.found.injEq] at h
      obtain ⟨rfl, -⟩ := h
      exact ⟨hhint.1, hhint.2.1, Or.inl hhint.2.2⟩
    · rw [if_neg hhint] at h
      cases hp : phase1Loop docLines snippet hintLine (max 0 (hintLine - radius))
          (min ((docLines.length : ℤ) - 1) (hintLine + radius)) 1 radius with
      | some r =>
        rw [hp] at h
        dsimp only at h
        subst h
        obtain ⟨line, hidx, hsw⟩ := phase1Loop_found_spec docLines snippet hintLine
          (max 0 (hintLine - radius)) (min ((docLines.length : ℤ) - 1) (hintLine + radius))
          l conf radius 1 hp
        obtain ⟨hb0, hbl⟩ := jsIndex_bounds hidx
        refine ⟨hb0, hbl, Or.inl ?_⟩
        rw [hidx]
        exact hsw
      | none =>
        rw [hp] at h
        dsimp only at h
        have hbase : FuzzyInv docLines snippet hintLine [] none :=
          fun i hmem => absurd hmem (List.not_mem_nil i)
        have hinv := foldl_fuzzyStep_inv docLines snippet hintLine
          (intRange (max 0 (hintLine - radius))
            (min ((docLines.length : ℤ) - 1) (hintLine + radius))) [] none hbase
        simp only [List.nil_append] at hinv
        cases hfold : (intRange (max 0 (hintLine - radius))
            (min ((docLines.length : ℤ) - 1) (hintLine + radius))).foldl
            (fuzzyStep docLines snippet hintLine) none with
        | none => rw [hfold] at h; simp at h
        | some best =>
          obtain ⟨bl, bs, bd⟩ := best
          rw [hfold] at h hinv
          dsimp only at h
          simp only [FindLineResult.found.injEq] at h
          obtain ⟨rfl, rfl⟩ := h
          obtain ⟨hmem, hbs, hbd, hb7, -⟩ := hinv
          rw [mem_intRange] at hmem
          refine ⟨by omega, by omega, Or.inr ?_⟩
          rw [hbs] at hb7
          exact hb7

/-- `jsStartsWith` as a prefix relation. -/
lemma jsStartsWith_iff (l s : JStr) : jsStartsWith l s = true ↔ s <+: l := by
  unfold jsStartsWith
  exact List.isPrefixOf_iff_prefix

/-- A fuzzy-accepted candidate is nonempty (similarity to a nonempty snippet
would be `0` otherwise). -/
lemma fuzzy_candidate_ne_nil (s cand : JStr) (hs : s ≠ [])
    (h : (7:ℚ)/10 ≤ bigramSimilarity s cand) : cand ≠ [] := by
  intro hcand
  subst hcand
  unfold bigramSimilarity at h
  rw [if_neg hs] at h
  rw [if_pos (Or.inr (by simp))] at h
  norm_num at h

/-- `captureSnippet` is empty iff the first 50 characters are all whitespace. -/
lemma captureSnippet_eq_nil_iff (s : JStr) :
    captureSnippet s = [] ↔ ∀ c ∈ s.take 50, c.isWhitespace := by
  unfold captureSnippet trimEnd
  rw [List.rdropWhile_eq_nil_iff]

/-- A line starting with a snippet whose capture is nonempty itself captures
to a nonempty snippet. -/
lemma captureSnippet_ne_nil_mono (s line : JStr) (hp : s <+: line)
    (h : captureSnippet s ≠ []) : captureSnippet line ≠ [] := by
  intro hline
  apply h
  rw [captureSnippet_eq_nil_iff] at hline ⊢
  intro c hc
  apply hline
  obtain ⟨t, rfl⟩ := hp
  rw [List.take_append_eq_append_take]
  exact List.mem_append_left _ hc

/-- A nonempty capture means a nonempty string. -/
lemma ne_nil_of_captureSnippet_ne_nil (s : JStr) (h : captureSnippet s ≠ []) : s ≠ [] := by
  intro hs
  subst hs
  exact h rfl

/-- An optional nonempty string is not falsy. -/
lemma strFalsy_some_of_ne (s : JStr) (hs : s ≠ []) : strFalsy (some s) = false := by
  cases s with
  | nil => exact absurd rfl hs
  | cons a t => rfl

/-- Evaluation of `reconcileOne` for a comment with a nonempty snippet. -/
lemma reconcileOne_eq_of_snippet (docLines : List JStr) (c : Comment) (s : JStr)
    (hs : c.content_snippet = some s) (hsne : s ≠ []) :
    reconcileOne docLines c =
      (if 0 ≤ c.location.start_line - 1 ∧ c.location.start_line - 1 < (docLines.length : ℤ) ∧
          jsStartsWith ((jsIndex docLines (c.location.start_line - 1)).getD []) s = true then
        if c.is_stale = some true then .ok ({ c with is_stale := some false }, true)
        else .ok (c, false)
      else
        match findLineBySnippet docLines s (c.location.start_line - 1) 50 with
        | .crash => .error ()
        | .found l _conf =>
          .ok ({ c with
            location := { c.location with
              start_line := l + 1,
              end_line := c.location.end_line + (l + 1 - c.location.start_line) },
            content_snippet := some (captureSnippet ((jsIndex docLines l).getD [])),
            is_stale := if c.is_stale = some true then some false else c.is_stale }, true)
        | .notFound =>
          if c.is_stale = some true then .ok (c, false)
          else .ok ({ c with is_stale := some true }, true)) := by
  simp only [reconcileOne, hs, strFalsy_some_of_ne s hsne, Bool.false_eq_true, if_false,
    Option.getD_some]

/-- A comment whose nonempty snippet is verified at its in-range anchor and
which is not flagged stale is left untouched by the reconciler. -/
lemma reconcileOne_verified (docLines : List JStr) (c : Comment) (s : JStr)
    (hs : c.content_snippet = some s) (hsne : s ≠ [])
    (h0 : 0 ≤ c.location.start_line - 1)
    (hlt : c.location.start_line - 1 < (docLines.length : ℤ))
    (hsw : jsStartsWith ((jsIndex docLines (c.location.start_line - 1)).getD []) s = true)
    (hstale : c.is_stale ≠ some true) :
    reconcileOne docLines c = .ok (c, false) := by
  rw [reconcileOne_eq_of_snippet docLines c s hs hsne]
  rw [if_pos ⟨h0, hlt, hsw⟩, if_neg hstale]

/-- Core of C2 (amended): under `SnippetSafe`, one reconciler step reaches a
state that a second step leaves unchanged with the changed flag clear. -/
lemma reconcileOne_safe_idem (docLines : List JStr) (c : Comment)
    (h : SnippetSafe docLines c) :
    ∃ c' ch, reconcileOne docLines c = .ok (c', ch) ∧
      reconcileOne docLines c' = .ok (c', false) := by
  obtain ⟨s, hs, hcap, hlb, hub⟩ := h
  have hsne : s ≠ [] := ne_nil_of_captureSnippet_ne_nil s hcap
  have h0 : 0 ≤ c.location.start_line - 1 := by omega
  have hlt : c.location.start_line - 1 < (docLines.length : ℤ) := by omega
  rw [reconcileOne_eq_of_snippet docLines c s hs hsne]
  by_cases hver : jsStartsWith ((jsIndex docLines (c.location.start_line - 1)).getD []) s = true
  · rw [if_pos ⟨h0, hlt, hver⟩]
    by_cases hstale : c.is_stale = some true
    · rw [if_pos hstale]
      refine ⟨{ c with is_stale := some false }, true, rfl, ?_⟩
      exact reconcileOne_verified docLines _ s hs hsne h0 hlt hver (by simp)
    · rw [if_neg hstale]
      exact ⟨c, false, rfl, reconcileOne_verified docLines c s hs hsne h0 hlt hver hstale⟩
  · rw [if_neg (fun hc => hver hc.2.2)]
    cases hfind : findLineBySnippet docLines s (c.location.start_line - 1) 50 with
    | crash =>
      exact absurd hfind (findLineBySnippet_no_crash docLines s _ 50 h0 hlt)
    | found l conf =>
      obtain ⟨hb0, hbl, hdisj⟩ :=
        findLineBySnippet_found_spec docLines s (c.location.start_line - 1) 50 l conf hfind
      have hcapL : captureSnippet ((jsIndex docLines l).getD []) ≠ [] := by
        rcases hdisj with hsw | hsim
        · exact captureSnippet_ne_nil_mono s _ ((jsStartsWith_iff _ s).1 hsw) hcap
        · exact fuzzy_candidate_ne_nil s _ hsne hsim
      refine ⟨{ c with
        location := { c.location with
          start_line := l + 1,
          end_line := c.location.end_line + (l + 1 - c.location.start_line) },
        content_snippet := some (captureSnippet ((jsIndex docLines l).getD [])),
        is_stale := if c.is_stale = some true then some false else c.is_stale }, true, rfl, ?_⟩
      refine reconcileOne_verified docLines _ (captureSnippet ((jsIndex docLines l).getD []))
        rfl hcapL (by dsimp only; omega) (by dsimp only; omega) ?_ ?_
      · have heq : ({ c with
            location := { c.location with
              start_line := l + 1,
              end_line := c.location.end_line + (l + 1 - c.location.start_line) },
            content_snippet := some (captureSnippet ((jsIndex docLines l).getD [])),
            is_stale := if c.is_stale = some true then some false
              else c.is_stale } : Comment).location.start_line - 1 = l := by
          dsimp only
          omega
        rw [heq]
        exact (jsStartsWith_iff _ _).mpr (captureSnippet_isPre _)
      · dsimp only
        by_cases hst : c.is_stale = some true
        · rw [if_pos hst]; simp
        · rw [if_neg hst]; exact hst
    | notFound =>
      dsimp only
      by_cases hstale : c.is_stale = some true
      · rw [if_pos hstale]
        refine ⟨c, false, rfl, ?_⟩
        rw [reconcileOne_eq_of_snippet docLines c s hs hsne]
        rw [if_neg (fun hc => hver hc.2.2), hfind]
        dsimp only
        rw [if_pos hstale]
      · rw [if_neg hstale]
        refine ⟨{ c with is_stale := some true }, true, rfl, ?_⟩
        rw [reconcileOne_eq_of_snippet docLines { c with is_stale := some true } s
          (by dsimp only; exact hs) hsne]
        have hver2 : ¬(0 ≤ ({ c with is_stale := some true } : Comment).location.start_line - 1 ∧
            ({ c with is_stale := some true } : Comment).location.start_line - 1
              < (docLines.length : ℤ) ∧
            jsStartsWith ((jsIndex docLines
              (({ c with is_stale := some true } : Comment).location.start_line - 1)).getD [])
              s = true) := fun hc => hver hc.2.2
        rw [if_neg hver2]
        dsimp only
        rw [hfind]
        dsimp only
        simp

/-- Pass-level lift of `reconcileOne_safe_idem`: the first pass succeeds and
its output is a fixpoint of the pass with the changed flag clear; the output
has as many comments as the input. -/
lemma reconcilePass_safe_idem (docLines : List JStr) :
    ∀ cs : List Comment, (∀ c ∈ cs, SnippetSafe docLines c) →
    ∃ cs' ch, reconcilePass docLines cs = .ok (cs', ch) ∧
      reconcilePass docLines cs' = .ok (cs', false) ∧ cs'.length = cs.length
  | [], _ => ⟨[], false, rfl, rfl, rfl⟩
  | c :: cs, h => by
    obtain ⟨c', ch1, e1, e1'⟩ := reconcileOne_safe_idem docLines c (h c (List.mem_cons_self c cs))
    obtain ⟨cs', chs, e2, e2', hlen⟩ := reconcilePass_safe_idem docLines cs
      (fun x hx => h x (List.mem_cons_of_mem c hx))
    refine ⟨c' :: cs', ch1 || chs, ?_, ?_, by simp [hlen]⟩
    · show (do
        let r ← reconcileOne docLines c
        let rs ← reconcilePass docLines cs
        Except.ok (r.1 :: rs.1, r.2 || rs.2)) = Except.ok (c' :: cs', ch1 || chs)
      rw [e1, e2]
      rfl
    · show (do
        let r ← reconcileOne docLines c'
        let rs ← reconcilePass docLines cs'
        Except.ok (r.1 :: rs.1, r.2 || rs.2)) = Except.ok (c' :: cs', false)
      rw [e1', e2']
      rfl

/-- A cache hit evaluates `getComments` trivially. -/
lemma getComments_hit (st : MgrState) (p : String) (cf : CommentFile)
    (h : alGet st.cache p = some cf) : getComments st p = (st, some cf) := by
  unfold getComments
  rw [h]

/-- C2 (amended): on an unchanged document, provided every annotation carries
a snippet whose first 50 characters are not all whitespace and anchors within
the document, a second reconciler run leaves the state exactly as the first
run left it and performs no store write. -/
theorem verifyAndRelocate_idempotent (st : MgrState) (notePath : String) (content : JStr)
    (now now' : String) (cf : CommentFile)
    (hget : (getComments st notePath).2 = some cf)
    (hpath : cf.note_path = notePath)
    (hsafe : ∀ c ∈ cf.comments, SnippetSafe (splitLines content) c) :
    ∃ st1 w1, verifyAndRelocateComments st notePath (some content) now true = .ok (st1, w1) ∧
      verifyAndRelocateComments st1 notePath (some content) now' true = .ok (st1, 0) := by
  have hcached := getComments_cached st notePath cf hget
  have hhit := getComments_hit (getComments st notePath).1 notePath cf hcached
  by_cases hcs : cf.comments = []
  · refine ⟨(getComments st notePath).1, 0, ?_, ?_⟩
    · simp only [verifyAndRelocateComments]
      rw [hget]
      try dsimp only
      rw [if_pos hcs]
    · simp only [verifyAndRelocateComments]
      rw [hhit]
      try dsimp only
      rw [if_pos hcs]
  · by_cases hc0 : content = []
    · refine ⟨(getComments st notePath).1, 0, ?_, ?_⟩
      · simp only [verifyAndRelocateComments]
        rw [hget]
        try dsimp only
        rw [if_neg hcs]
        try dsimp only
        rw [if_pos hc0]
      · simp only [verifyAndRelocateComments]
        rw [hhit]
        try dsimp only
        rw [if_neg hcs]
        try dsimp only
        rw [if_pos hc0]
    · obtain ⟨cs', ch, e1, e1', hlen⟩ :=
        reconcilePass_safe_idem (splitLines content) cf.comments hsafe
      have hcs' : cs' ≠ [] := by
        intro hnil
        apply hcs
        rw [hnil] at hlen
        exact List.length_eq_zero.1 hlen.symm
      cases ch with
      | false =>
        refine ⟨(getComments st notePath).1, 0, ?_, ?_⟩
        · simp only [verifyAndRelocateComments]
          rw [hget]
          try dsimp only
          rw [if_neg hcs]
          try dsimp only
          rw [if_neg hc0, e1]
          try dsimp only
          simp
        · simp only [verifyAndRelocateComments]
          rw [hhit]
          try dsimp only
          rw [if_neg hcs]
          try dsimp only
          rw [if_neg hc0, e1]
          try dsimp only
          simp
      | true =>
        refine ⟨(saveComments (getComments st notePath).1
          { cf with comments := cs' } now true).1, 1, ?_, ?_⟩
        · simp only [verifyAndRelocateComments]
          rw [hget]
          try dsimp only
          rw [if_neg hcs]
          try dsimp only
          rw [if_neg hc0, e1]
          try dsimp only
          rw [if_pos rfl]
          have hok : (saveComments (getComments st notePath).1
              { cf with comments := cs' } now true).2 = true := by
            simp [saveComments]
          rw [hok]
          simp
        · have hcget : alGet (saveComments (getComments st notePath).1
              { cf with comments := cs' } now true).1.cache notePath
              = some { cf with
                  comments := cs',
                  metadata := recalculateMetadata cs',
                  updated_at := now } := by
            unfold saveComments
            dsimp only
            rw [hpath, hcached]
            simp only [Option.isSome_some, if_true]
            exact alGet_alSet_self _ _ _
          have hhit2 := getComments_hit _ notePath _ hcget
          simp only [verifyAndRelocateComments]
          rw [hhit2]
          try dsimp only
          rw [if_neg (show ¬({ cf with
            comments := cs',
            metadata := recalculateMetadata cs',
            updated_at := now } : CommentFile).comments = [] from hcs')]
          try dsimp only
          rw [if_neg hc0]
          try dsimp only
          rw [e1']
          try dsimp only
          simp

/-- Witness for C2's amended theorem at a concrete snippet-safe store. -/
theorem verifyAndRelocate_idempotent_witness :
    ((getComments wState2 "n.md").2 = some wFile2 ∧
      wFile2.note_path = "n.md" ∧
      (∀ c ∈ wFile2.comments, SnippetSafe (splitLines (js "alpha beta")) c)) ∧
    (∃ st1 w1,
      verifyAndRelocateComments wState2 "n.md" (some (js "alpha beta")) "t1" true
        = .ok (st1, w1) ∧
      verifyAndRelocateComments st1 "n.md" (some (js "alpha beta")) "t2" true
        = .ok (st1, 0)) :=
  ⟨⟨by decide, by decide,
      fun c hc => by
        rw [List.mem_singleton.1 hc]
        exact ⟨js "alpha", by decide, by decide, by decide, by decide⟩⟩,
    verifyAndRelocate_idempotent wState2 "n.md" (js "alpha beta") "t1" "t2" wFile2
      (by decide) (by decide)
      (fun c hc => by
        rw [List.mem_singleton.1 hc]
        exact ⟨js "alpha", by decide, by decide, by decide, by decide⟩)⟩

/-- A Phase 1 probe finds nothing at distance `d` when both sides fail. -/
lemma phase1Step_none (docLines : List JStr) (snippet : JStr) (hintLine lo hi : ℤ) (d : ℕ)
    (hneg : lo ≤ hintLine - d →
      ∃ line, jsIndex docLines (hintLine - d) = some line ∧ jsStartsWith line snippet = false)
    (hpos : hintLine + d ≤ hi →
      ∃ line, jsIndex docLines (hintLine + d) = some line ∧ jsStartsWith line snippet = false) :
    phase1Step docLines snippet hintLine lo hi d = none := by
  have hposstep : phase1StepPos docLines snippet hintLine hi d = none := by
    unfold phase1StepPos
    by_cases hc : hintLine + d ≤ hi
    · rw [if_pos hc]
      obtain ⟨line, hl, hsw⟩ := hpos hc
      rw [hl]
      dsimp only
      rw [hsw]
      simp
    · rw [if_neg hc]
  unfold phase1Step
  by_cases hc : lo ≤ hintLine - d
  · rw [if_pos hc]
    obtain ⟨line, hl, hsw⟩ := hneg hc
    rw [hl]
    dsimp only
    rw [hsw]
    simp only [Bool.false_eq_true, if_false]
    exact hposstep
  · rw [if_neg hc]
    exact hposstep

/-- A Phase 1 probe that fails on the negative side and matches on the
positive side returns the positive line. -/
lemma phase1Step_found_pos (docLines : List JStr) (snippet : JStr) (hintLine lo hi : ℤ) (d : ℕ)
    (hneg : lo ≤ hintLine - d →
      ∃ line, jsIndex docLines (hintLine - d) = some line ∧ jsStartsWith line snippet = false)
    (hc : hintLine + d ≤ hi) (L : JStr)
    (hidx : jsIndex docLines (hintLine + d) = some L)
    (hsw : jsStartsWith L snippet = true) :
    phase1Step docLines snippet hintLine lo hi d = some (.found (hintLine + d) 1) := by
  have hposstep : phase1StepPos docLines snippet hintLine hi d
      = some (.found (hintLine + d) 1) := by
    unfold phase1StepPos
    rw [if_pos hc, hidx]
    dsimp only
    rw [if_pos hsw]
  unfold phase1Step
  by_cases hc' : lo ≤ hintLine - d
  · rw [if_pos hc']
    obtain ⟨line, hl, hsw'⟩ := hneg hc'
    rw [hl]
    dsimp only
    rw [hsw']
    simp only [Bool.false_eq_true, if_false]
    exact hposstep
  · rw [if_neg hc']
    exact hposstep

/-- The Phase 1 loop returns the first probe's result after a run of failed
probes. -/
lemma phase1Loop_found_at (docLines : List JStr) (snippet : JStr) (hintLine lo hi : ℤ)
    (r : FindLineResult) :
    ∀ (fuel d dF : ℕ), d ≤ dF → dF < d + fuel →
    (∀ e, d ≤ e → e < dF → phase1Step docLines snippet hintLine lo hi e = none) →
    phase1Step docLines snippet hintLine lo hi dF = some r →
    phase1Loop docLines snippet hintLine lo hi d fuel = some r := by
  intro fuel
  induction fuel with
  | zero => intro d dF h1 h2 _ _; omega
  | succ n ih =>
    intro d dF h1 h2 hnone hfound
    unfold phase1Loop
    by_cases hdd : d = dF
    · subst hdd
      rw [hfound]
    · have hstep : phase1Step docLines snippet hintLine lo hi d = none :=
        hnone d (le_refl d) (by omega)
      rw [hstep]
      dsimp only
      exact ih (d + 1) dF (by omega) (by omega) (fun e he1 he2 => hnone e (by omega) he2) hfound

/-- Reading the document at the position right after `A ++ I` yields `L`. -/
lemma jsIndex_at_insert (A I : List JStr) (L : JStr) (B : List JStr) :
    jsIndex (A ++ I ++ L :: B) ((A.length : ℤ) + I.length) = some L := by
  unfold jsIndex
  rw [if_pos (by positivity)]
  have htn : ((A.length : ℤ) + I.length).toNat = A.length + I.length := by omega
  rw [htn]
  rw [List.append_assoc]
  rw [List.getElem?_append_right (by omega)]
  rw [List.getElem?_append_right (by omega)]
  simp

/-- C5 (amended): insert 5 lines above an annotation's anchor; provided the
captured snippet is non-blank and no line within 5 lines of the stored anchor
position starts with the snippet (the anchor's shifted line, 5 below, does),
the reconciler relocates the annotation: not stale, `start_line` and
`end_line` both shifted by exactly `+5`, snippet recaptured unchanged. -/
theorem reconciler_insert5_shifts (A I B : List JStr) (L : JStr) (c : Comment)
    (hI : I.length = 5)
    (hstart : c.location.start_line = (A.length : ℤ) + 1)
    (hsnip : c.content_snippet = some (captureSnippet L))
    (hcap : captureSnippet L ≠ [])
    (hnomatch : ∀ i ∈ intRange ((A.length : ℤ) - 5) ((A.length : ℤ) + 4),
      jsStartsWith ((jsIndex (A ++ I ++ L :: B) i).getD []) (captureSnippet L) = false) :
    ∃ c', reconcileOne (A ++ I ++ L :: B) c = .ok (c', true) ∧
      c'.location.start_line = c.location.start_line + 5 ∧
      c'.location.end_line = c.location.end_line + 5 ∧
      c'.is_stale ≠ some true ∧
      c'.content_snippet = some (captureSnippet L) := by
  have hsne : captureSnippet L ≠ [] := hcap
  have hlen : ((A ++ I ++ L :: B).length : ℤ)
      = (A.length : ℤ) + I.length + 1 + B.length := by
    simp
    ring
  have hidx5 : jsIndex (A ++ I ++ L :: B) ((A.length : ℤ) + ((5:ℕ):ℤ)) = some L := by
    have h := jsIndex_at_insert A I L B
    rw [hI] at h
    exact h
  have hpmem : ∀ i : ℤ, (A.length : ℤ) - 5 ≤ i → i ≤ (A.length : ℤ) + 4 →
      jsStartsWith ((jsIndex (A ++ I ++ L :: B) i).getD []) (captureSnippet L) = false := by
    intro i h1 h2
    exact hnomatch i ((mem_intRange i _ _).2 ⟨h1, h2⟩)
  have hnegside : ∀ e : ℕ, 1 ≤ e → e ≤ 5 →
      max 0 ((A.length : ℤ) - 50) ≤ (A.length : ℤ) - e →
      ∃ line, jsIndex (A ++ I ++ L :: B) ((A.length : ℤ) - e) = some line ∧
        jsStartsWith line (captureSnippet L) = false := by
    intro e he1 he2 hle
    have h0 : (0:ℤ) ≤ (A.length : ℤ) - e := le_trans (le_max_left 0 _) hle
    obtain ⟨line, hline⟩ := jsIndex_isSome_of_bounds (A ++ I ++ L :: B)
      ((A.length : ℤ) - e) h0 (by rw [hlen]; omega)
    refine ⟨line, hline, ?_⟩
    have := hpmem ((A.length : ℤ) - e) (by omega) (by omega)
    rw [hline] at this
    simpa using this
  have hsteps : ∀ e, 1 ≤ e → e < 5 →
      phase1Step (A ++ I ++ L :: B) (captureSnippet L) (A.length : ℤ)
        (max 0 ((A.length : ℤ) - 50))
        (min (((A ++ I ++ L :: B).length : ℤ) - 1) ((A.length : ℤ) + 50)) e = none := by
    intro e he1 he2
    apply phase1Step_none
    · exact hnegside e he1 (by omega)
    · intro hle
      have h0 : (0:ℤ) ≤ (A.length : ℤ) + e := by positivity
      obtain ⟨line, hline⟩ := jsIndex_isSome_of_bounds (A ++ I ++ L :: B)
        ((A.length : ℤ) + e) h0 (by rw [hlen]; omega)
      refine ⟨line, hline, ?_⟩
      have := hpmem ((A.length : ℤ) + e) (by omega) (by omega)
      rw [hline] at this
      simpa using this
  have hstep5 : phase1Step (A ++ I ++ L :: B) (captureSnippet L) (A.length : ℤ)
      (max 0 ((A.length : ℤ) - 50))
      (min (((A ++ I ++ L :: B).length : ℤ) - 1) ((A.length : ℤ) + 50)) 5
      = some (.found ((A.length : ℤ) + ((5:ℕ):ℤ)) 1) := by
    apply phase1Step_found_pos _ _ _ _ _ _ (hnegside 5 (by omega) (by omega))
      (le_min (by rw [hlen]; omega) (by omega))
      L hidx5
      ((jsStartsWith_iff _ _).mpr (captureSnippet_isPre L))
  have hfind : findLineBySnippet (A ++ I ++ L :: B) (captureSnippet L) (A.length : ℤ) 50
      = .found ((A.length : ℤ) + ((5:ℕ):ℤ)) 1 := by
    simp only [findLineBySnippet, Nat.cast_ofNat]
    rw [if_neg hsne]
    have hpfail := hpmem (A.length : ℤ) (by omega) (by omega)
    rw [if_neg (fun hc => by rw [hpfail] at hc; exact absurd hc.2.2 (by simp))]
    rw [phase1Loop_found_at (A ++ I ++ L :: B) (captureSnippet L) (A.length : ℤ)
      (max 0 ((A.length : ℤ) - 50))
      (min (((A ++ I ++ L :: B).length : ℤ) - 1) ((A.length : ℤ) + 50))
      (.found ((A.length : ℤ) + ((5:ℕ):ℤ)) 1) 50 1 5 (by omega) (by omega) hsteps hstep5]
    norm_cast
  rw [reconcileOne_eq_of_snippet (A ++ I ++ L :: B) c (captureSnippet L) hsnip hcap]
  have hph : c.location.start_line - 1 = (A.length : ℤ) := by omega
  rw [hph]
  have hpfail := hpmem (A.length : ℤ) (by omega) (by omega)
  rw [if_neg (fun hc => by rw [hpfail] at hc; exact absurd hc.2.2 (by simp))]
  rw [hfind]
  dsimp only
  refine ⟨_, rfl, by dsimp only; omega, by dsimp only; omega, ?_, ?_⟩
  · dsimp only
    by_cases hst : c.is_stale = some true
    · rw [if_pos hst]; simp
    · rw [if_neg hst]; exact hst
  · dsimp only
    rw [hidx5]
    rfl

/-- C5, counterexample: the snippet was captured from the anchored line
(`captureSnippet "dup" = "dup"`) and 5 lines were inserted above the anchor,
yet the reconciler relocates to the closer duplicate at line 1: `stale` is
false but `start_line` is `1`, not the original `6 + 5`. -/
theorem reconciler_insert5_counterexample :
    reconcileOne w5Doc w5Comment = .ok (w5Relocated, true) ∧
    w5Relocated.location.start_line ≠ w5Comment.location.start_line + 5 :=
  ⟨rfl, by decide⟩

/-- Witness for C5's amended theorem: blank lines inserted above a unique
anchor line. -/
theorem reconciler_insert5_shifts_witness :
    (w5I.length = 5 ∧
      w5c.location.start_line = ((([] : List JStr).length : ℤ) + 1) ∧
      w5c.content_snippet = some (captureSnippet (js "anchor")) ∧
      captureSnippet (js "anchor") ≠ [] ∧
      (∀ i ∈ intRange ((([] : List JStr).length : ℤ) - 5) ((([] : List JStr).length : ℤ) + 4),
        jsStartsWith ((jsIndex ([] ++ w5I ++ (js "anchor") :: []) i).getD [])
          (captureSnippet (js "anchor")) = false)) ∧
    (∃ c', reconcileOne ([] ++ w5I ++ (js "anchor") :: []) w5c = .ok (c', true) ∧
      c'.location.start_line = w5c.location.start_line + 5 ∧
      c'.location.end_line = w5c.location.end_line + 5 ∧
      c'.is_stale ≠ some true ∧
      c'.content_snippet = some (captureSnippet (js "anchor"))) :=
  ⟨⟨by decide, by decide, by decide, by decide, by decide⟩,
    reconciler_insert5_shifts [] w5I [] (js "anchor") w5c
      (by decide) (by decide) (by decide) (by decide) (by decide)⟩

/-- C9: colliding buckets combine by sum/OR/AND rather than overwrite — in
live remapping (two buckets mapped onto one line), in `build` (two comments
on the same line), and on the spec's concrete example. -/
theorem lineAggregate_merge_law :
    (∀ (oldLines : ℕ) (mapLine : ℤ → Option ℤ) (l1 l2 L : ℤ) (b1 b2 : CommentLineInfo),
      l1 ≠ l2 → 1 ≤ l1 → l1 ≤ (oldLines : ℤ) → 1 ≤ l2 → l2 ≤ (oldLines : ℤ) →
      mapLine l1 = some L → mapLine l2 = some L →
      remapLineMap oldLines mapLine [(l1, b1), (l2, b2)] = [(L, mergeInfo b1 b2)]) ∧
    (∀ (hideResolved : Bool) (c1 c2 : Comment),
      (hideResolved && decide (c1.status = CommentStatus.resolved)) = false →
      (hideResolved && decide (c2.status = CommentStatus.resolved)) = false →
      c2.location.start_line = c1.location.start_line →
      buildLineMap hideResolved [c1, c2] =
        [(c1.location.start_line, mergeInfo (singletonInfo c1) (singletonInfo c2))]) ∧
    mergeInfo ⟨1, false, true⟩ ⟨1, true, true⟩ = ⟨2, true, true⟩ := by
  refine ⟨?_, ?_, by decide⟩
  · intro oldLines mapLine l1 l2 L b1 b2 hne h11 h12 h21 h22 hm1 hm2
    simp only [remapLineMap, List.foldl]
    rw [if_neg (by omega), hm1]
    dsimp only
    rw [if_neg (by omega), hm2]
    dsimp only
    have hg0 : lmGet [] L = none := rfl
    rw [hg0]
    dsimp only
    have hset0 : lmSet [] L b1 = [(L, b1)] := rfl
    rw [hset0]
    have hget : lmGet [(L, b1)] L = some b1 := by
      simp [lmGet, List.find?]
    rw [hget]
    dsimp only
    simp [lmSet]
  · intro hideResolved c1 c2 hf1 hf2 hline
    simp only [buildLineMap, List.foldl]
    rw [hf1]
    simp only [Bool.false_eq_true, if_false]
    have hg0 : lmGet [] c1.location.start_line = none := rfl
    rw [hg0]
    dsimp only
    rw [hf2]
    simp only [Bool.false_eq_true, if_false]
    rw [hline]
    have hget : lmGet (lmSet [] c1.location.start_line (singletonInfo c1))
        c1.location.start_line = some (singletonInfo c1) := by
      simp [lmGet, lmSet, List.find?]
    rw [hget]
    dsimp only
    simp [lmSet]

/-- Witness for C9: two buckets collapsing onto line 2, two open comments on
line 1, and the spec's concrete merge example. -/
theorem lineAggregate_merge_law_witness :
    (((1:ℤ) ≠ (2:ℤ)) ∧ (fun (_ : ℤ) => some (2:ℤ)) 1 = some 2 ∧
      remapLineMap 3 (fun _ => some 2)
        [(1, ⟨1, false, true⟩), (2, ⟨1, true, true⟩)] = [(2, mergeInfo ⟨1, false, true⟩ ⟨1, true, true⟩)]) ∧
    ((true && decide (wComment2.status = CommentStatus.resolved)) = false ∧
      buildLineMap true [wComment2, { wComment2 with id := "c2" }] =
        [(wComment2.location.start_line,
          mergeInfo (singletonInfo wComment2) (singletonInfo { wComment2 with id := "c2" }))]) ∧
    mergeInfo ⟨1, false, true⟩ ⟨1, true, true⟩ = ⟨2, true, true⟩ :=
  ⟨⟨by decide, rfl,
      lineAggregate_merge_law.1 3 (fun _ => some 2) 1 2 2 ⟨1, false, true⟩ ⟨1, true, true⟩
        (by decide) (by decide) (by decide) (by decide) (by decide) rfl rfl⟩,
    ⟨by decide,
      lineAggregate_merge_law.2.1 true wComment2 { wComment2 with id := "c2" }
        (by decide) (by decide) (by decide)⟩,
    lineAggregate_merge_law.2.2⟩

/-- C3, counterexample: the guard is released `500` ms after the write
completes — less than the tracker's `2000` ms debounce window — so a modify
event at `t = 500` (inside the window the claim says is covered) finds the
guard released and invalidates the cached document. -/
theorem selfSaveGuard_shorter_than_debounce_counterexample :
    selfSaveReleaseDelayMs < trackerDebounceMs ∧
    selfSaveCountAt 0 0 500 = 0 ∧
    500 < trackerDebounceMs ∧
    handleModify (selfSaveCountAt 0 0 500) wState.cache "n.md" ≠ wState.cache := by decide

/-- C3 (amended): the guard is engaged before the write and held for `500` ms
after the write completes (not for the `2000` ms debounce window); while it
is held the external-change handler does not invalidate the document. -/
theorem selfSaveGuard_holds_500ms (tEngage tComplete t : ℕ)
    (h1 : tEngage ≤ t) (h2 : t < tComplete + selfSaveReleaseDelayMs)
    (cache : List (String × CommentFile)) (notePath : String) :
    0 < selfSaveCountAt tEngage tComplete t ∧
    handleModify (selfSaveCountAt tEngage tComplete t) cache notePath = cache := by
  unfold selfSaveCountAt
  rw [if_pos ⟨h1, h2⟩]
  exact ⟨Nat.one_pos, by unfold handleModify; rw [if_pos Nat.one_pos]⟩

/-- Witness for C3's amended theorem at a concrete trace. -/
theorem selfSaveGuard_holds_500ms_witness :
    ((0:ℕ) ≤ 100 ∧ (100:ℕ) < 0 + selfSaveReleaseDelayMs) ∧
    (0 < selfSaveCountAt 0 0 100 ∧
      handleModify (selfSaveCountAt 0 0 100) wState.cache "n.md" = wState.cache) :=
  ⟨⟨by decide, by decide⟩,
    selfSaveGuard_holds_500ms 0 0 100 (by decide) (by decide) wState.cache "n.md"⟩
